import Mathlib

/-!
# info-disclosure-headers: the concurrent probe dispatcher of `main.go`

A shallow embedding of `worker` and of the dispatch loop of `main`, with the
properties of the natural-language specification stated over it.

* Strings are Lean strings; the Go `int` status code is an `Int`.
* The counter of the `sync.WaitGroup` is an `int32`: `wg.Add` and `wg.Done()`
  wrap and panic as they do in package `sync`.
* The two calls into `net/http` (`http.NewRequest`, `client.Do`) are the
  program's only inputs besides its flags: their result is the `Outcome`
  handed to `worker`.
* Everything a worker does that another goroutine or the terminal can
  observe is an `Event`; `worker` returns the events of one call in program
  order, deferred calls included.
* The goroutines started by `main` are run by an interleaving machine
  (`step`, `run`) that performs one event of one goroutine at a time.
-/

namespace InfoDisclosure

/-! ## The fragment of package `fmt` used by the program -/

/-- An operand of a formatting call: the program passes strings and one `int`. -/
inductive Arg where
  | str (s : String)
  | int (i : Int)
  deriving DecidableEq, Repr

/-- The verb `%v` on an operand: a string is copied, an `int` is printed in
decimal with a leading `-` when negative. -/
def formatV : Arg → String
  | .str s => s
  | .int i => toString i

/-- Go's `fmt.Sprintf` on the characters of the format, restricted to the verb
`%v` (the only verb in `main.go`): every `%v` consumes the next operand, a
`%v` without operand prints `%!v(MISSING)` as in Go, any other character is
copied. Every format in `main.go` has as many `%v` as operands and no other
`%`, so neither flags, other verbs nor surplus operands are modelled. -/
def sprintfAux : List Char → List Arg → List Char
  | [], _ => []
  | [c], _ => [c]
  | c :: d :: fmt, args =>
    if c = '%' ∧ d = 'v' then
      match args with
      | a :: args' => (formatV a).data ++ sprintfAux fmt args'
      | [] => "%!v(MISSING)".data ++ sprintfAux fmt []
    else c :: sprintfAux (d :: fmt) args

/-- The text `fmt.Printf format args...` writes (one call, one write). -/
def Sprintf (format : String) (args : List Arg) : String :=
  ⟨sprintfAux format.data args⟩

/-- The text `fmt.Println args...` / `fmt.Fprintln w args...` writes: the
operands in `%v` form separated by one blank, then a newline. -/
def Sprintln (args : List Arg) : String :=
  " ".intercalate (args.map formatV) ++ "\n"

/-! ## The fragment of `net/http` used by the program -/

/-- Go's `textproto.validHeaderFieldByte`: the token characters of RFC 7230,
that is letters, digits and ``!#$%&'*+-.^_`|~``. -/
def validHeaderFieldByte (c : Char) : Bool :=
  c.isAlphanum || "!#$%&*+-.^_|~".data.contains c || c == Char.ofNat 39 || c == Char.ofNat 96

/-- The rewriting loop of `textproto.canonicalMIMEHeaderKey`: a lower-case
letter at the start or after a `-` becomes upper case, an upper-case letter
elsewhere becomes lower case. -/
def canonicalLoop : Bool → List Char → List Char
  | _, [] => []
  | upper, c :: cs =>
    let c' := if upper && c.isLower then c.toUpper
              else if !upper && c.isUpper then c.toLower else c
    c' :: canonicalLoop (c' == '-') cs

/-- Go's `textproto.CanonicalMIMEHeaderKey`: a key with a character that is
not a valid header field byte (a blank included) is returned unchanged, any
other key is put in canonical form. -/
def CanonicalMIMEHeaderKey (s : String) : String :=
  if s.data.all validHeaderFieldByte then ⟨canonicalLoop true s.data⟩ else s

/-- Go's `http.Header`, a `map[string][]string`, listed in the order in which
the `range` loop of this run visits it (Go leaves that order unspecified, so
every order is a possible input). The keys of a map are pairwise distinct:
statements that count header names assume `Nodup` of the keys. -/
abbrev Header := List (String × List String)

/-- Go's `Header.Get`: the first value stored under the canonical form of
`key`, and `""` when the key is absent or has no value. -/
def Header.Get (h : Header) (key : String) : String :=
  match List.lookup (CanonicalMIMEHeaderKey key) h with
  | some (v :: _) => v
  | _ => ""

/-- The fields of `http.Response` the program reads. -/
structure Response where
  StatusCode : Int
  Header : Header
  deriving DecidableEq, Repr

/-- What the two calls into `net/http` give one worker: `http.NewRequest`
fails with an error whose `Error()` text is `err`, or it succeeds and
`client.Do` fails likewise, or both succeed with the response `resp`. -/
inductive Outcome where
  | newRequestErr (err : String)
  | doErr (err : String)
  | ok (resp : Response)
  deriving DecidableEq, Repr

/-! ## `worker` -/

/-- The observable actions of a goroutine. -/
inductive Event where
  /-- One `fmt.Printf` / `fmt.Println` call: the text is formatted first and
  handed to `os.Stdout` by one `Write`, which the file serialises against the
  writes of other goroutines. -/
  | stdout (text : String)
  /-- One `fmt.Fprintln(os.Stderr, ..)` call: one `Write` of `text` to `os.Stderr`. -/
  | stderr (text : String)
  /-- The deferred `Body.Close()`. -/
  | closeBody
  /-- The deferred `wg.Done()`. -/
  | done
  /-- An unrecovered run-time panic reaches the top of the goroutine and ends the process. -/
  | crash
  deriving DecidableEq, Repr

/-- The loop `for k, v := range resp.Header` (lines 62-65): for every entry
one `Printf("%v:%v\n", k, v[0])`. `v[0]` on an entry without values is an
index-out-of-range panic, which ends the loop; the second component tells
whether that happened. The local map `headers` written on line 63 is never
read and is left out. -/
def rangeHeader : Header → List Event × Bool
  | [] => ([], false)
  | (_, []) :: _ => ([], true)
  | (k, v0 :: _) :: rest =>
    let r := rangeHeader rest
    (Event.stdout (Sprintf "%v:%v\n" [.str k, .str v0]) :: r.1, r.2)

/-- The block `if allHeaders { .. }` (lines 59-67): the status line, the header
loop and, unless the loop panicked, `fmt.Println()`. -/
def headerDump (method uri : String) (resp : Response) : List Event × Bool :=
  let r := rangeHeader resp.Header
  (Event.stdout (Sprintf "%v - %v - Status Code:%v\n" [.str uri, .str method, .int resp.StatusCode])
      :: r.1 ++ (if r.2 then [] else [Event.stdout (Sprintln [])]),
   r.2)

/-- The function `worker` (lines 21-68): the events of one call, in order.
`defer wg.Done()` is registered first and so runs last; the deferred
`Body.Close()` is registered once the response is there and runs before it.
Deferred calls also run when the body panics, after which the panic ends
the process. -/
def worker (method uri : String) (printAll allHeaders : Bool) (net : Outcome) : List Event :=
  match net with
  | .newRequestErr err => [Event.stderr (Sprintln [.str err]), Event.done]
  | .doErr err => [Event.stderr (Sprintln [.str err]), Event.done]
  | .ok resp =>
    let summary : List Event :=
      if printAll then
        [Event.stdout (Sprintf "%v|%v|%v|%v|%v|%v\n"
          [.str uri, .str method, .int resp.StatusCode, .str (resp.Header.Get "Server"),
           .str (resp.Header.Get "X-Powered-By"), .str (resp.Header.Get "Max-Forwards")])]
      else if !allHeaders && resp.StatusCode < 400 then
        [Event.stdout (Sprintf "%v|%v|%v|%v|%v|%v\n"
          [.str uri, .str method, .int resp.StatusCode, .str (resp.Header.Get "Server"),
           .str (resp.Header.Get "X-Powered-By"), .str (resp.Header.Get "Max-Forwards")])]
      else []
    let dump : List Event × Bool :=
      if allHeaders then headerDump method uri resp else ([], false)
    summary ++ dump.1 ++ [Event.closeBody, Event.done] ++ (if dump.2 then [Event.crash] else [])

/-- The texts a sequence of events writes to the report stream `os.Stdout`, in order. -/
def stdoutOf (es : List Event) : List String :=
  es.filterMap fun e => match e with
    | .stdout t => some t
    | _ => none

/-- The texts a sequence of events writes to the error stream `os.Stderr`, in order. -/
def stderrOf (es : List Event) : List String :=
  es.filterMap fun e => match e with
    | .stderr t => some t
    | _ => none

/-! ## What the specification calls the lines of a report -/

/-- The first value of the response header `name`, and the empty string when
the response has no such header (or the header has no value). -/
def firstValue (h : Header) (name : String) : String :=
  match List.lookup name h with
  | some (v :: _) => v
  | _ => ""

/-- The summary line of the specification: the six fields
`site|method|statusCode|Server|X-Powered-By|Max-Forwards`, then a newline. -/
def summaryLine (method uri : String) (resp : Response) : String :=
  uri ++ "|" ++ method ++ "|" ++ toString resp.StatusCode ++ "|" ++
    firstValue resp.Header "Server" ++ "|" ++ firstValue resp.Header "X-Powered-By" ++ "|" ++
    firstValue resp.Header "Max-Forwards" ++ "\n"

/-- The status line that opens a detail block. -/
def statusLine (method uri : String) (resp : Response) : String :=
  uri ++ " - " ++ method ++ " - Status Code:" ++ toString resp.StatusCode ++ "\n"

/-- The `name:value` line of one header entry, the value being the first one. -/
def headerLine (e : String × List String) : String :=
  e.1 ++ ":" ++ e.2.headD "" ++ "\n"

/-! ## `main`: the dispatcher -/

/-- The struct `Config` (lines 16-19), as `NewConfig` hands it to `main`. -/
structure Config where
  Sites : List String
  Methods : List String
  deriving DecidableEq, Repr

/-- The arguments `(method, uri)` of one `go worker(method, uri, ..)` statement. -/
abbrev Task := String × String

/-- The nested loops of `main` (lines 140-144): the `go` statements they
execute, in order. The outer loop ranges over `cfg.Sites`, the inner one over
`cfg.Methods`. -/
def launches (cfg : Config) : List Task :=
  cfg.Sites.foldl
    (fun started uri => cfg.Methods.foldl (fun started method => started ++ [(method, uri)]) started)
    []

/-- Go's conversion to `int32`: the value modulo `2^32`, taken in the range
`-2^31 .. 2^31 - 1`. -/
def toInt32 (x : Int) : Int :=
  (x + 2147483648) % 4294967296 - 2147483648

/-- Arithmetic in Go's `int` on a 64-bit build: the value modulo `2^64`, taken
in the range `-2^63 .. 2^63 - 1`. -/
def toInt64 (x : Int) : Int :=
  (x + 9223372036854775808) % 18446744073709551616 - 9223372036854775808

/-- The argument of `wg.Add` (line 139): the product of the two lengths,
computed in `int`. -/
def wgAddArg (cfg : Config) : Int :=
  toInt64 (cfg.Methods.length * cfg.Sites.length)

/-- The counter of a `sync.WaitGroup` after `Add(delta)`: the counter is the
upper half of a 64-bit word to which `uint64(delta) << 32` is added, and is
read back as an `int32`; only the lower 32 bits of `delta` count (so the
result is the same where `int` has 32 bits). `Add` panics with
`sync: negative WaitGroup counter` when the result is negative. -/
def wgAdd (counter delta : Int) : Int :=
  toInt32 (counter + delta)

/-- The column header `main` prints before it starts the workers (lines 134-136). -/
def mainHeader (allHeaders : Bool) : List String :=
  if allHeaders == false then
    [Sprintln [.str "Site|Method|StatusCode|Server Header|X-Powered-By Header|Max-Forwards Header"]]
  else []

/-- A state of the running program, from `wg.Add` on.
`procs` lists the goroutines started so far, in the order of their `go`
statements, each with the events it has still to perform. The streams
record every write with its writer (`none` is `main`, `some i` the goroutine
started `i`-th): the writer is bookkeeping for the statements and is never
read by `step`. `doneSignals` counts the `wg.Done()` calls so far and
`started` lists the tasks of the `go` statements executed so far, likewise. -/
structure State where
  counter : Int
  toLaunch : List Task
  started : List Task
  procs : List (List Event)
  out : List (Option Nat × String)
  err : List (Nat × String)
  doneSignals : Nat
  crashed : Bool
  returned : Bool
  deriving DecidableEq, Repr

/-- The state after `wg.Add(len(cfg.Methods) * len(cfg.Sites))`: the header
is printed, the counter holds what `Add` made of its argument, no goroutine
runs yet, and the process has ended by the panic of `Add` when that counter
is negative. -/
def initial (cfg : Config) (allHeaders : Bool) : State where
  counter := wgAdd 0 (wgAddArg cfg)
  toLaunch := launches cfg
  started := []
  procs := []
  out := (mainHeader allHeaders).map fun t => (none, t)
  err := []
  doneSignals := 0
  crashed := decide (wgAdd 0 (wgAddArg cfg) < 0)
  returned := false

/-- What the scheduler can let happen next. -/
inductive Action where
  /-- The loops of `main` execute their next `go worker(..)` statement. -/
  | launch
  /-- The goroutine started `i`-th performs its next event. -/
  | sched (i : Nat)
  /-- The call `wg.Wait()` returns, and `main` with it. -/
  | wait
  deriving DecidableEq, Repr

/-- The effect of one event of goroutine `i` on the shared state: a write
appends to its stream, `wg.Done()` is `wg.Add(-1)` and ends the process by
its panic when the counter becomes negative, a panic that is not recovered
ends the process. -/
def perform (i : Nat) (s : State) : Event → State
  | .stdout t => { s with out := s.out ++ [(some i, t)] }
  | .stderr t => { s with err := s.err ++ [(i, t)] }
  | .closeBody => s
  | .done =>
    { s with
      counter := wgAdd s.counter (-1)
      doneSignals := s.doneSignals + 1
      crashed := s.crashed || decide (wgAdd s.counter (-1) < 0) }
  | .crash => { s with crashed := true }

/-- One step of the program under the flags `printAll`, `allHeaders`, where
`net i` is what `net/http` gives the goroutine started `i`-th. `none` when
the action is not enabled: nothing happens once the process has ended, `go`
needs a remaining loop iteration, a goroutine needs a remaining event, and
`wg.Wait()` returns only after the loops, when the counter is zero. -/
def step (printAll allHeaders : Bool) (net : Nat → Outcome) (s : State) : Action → Option State
  | .launch =>
    if s.crashed || s.returned then none
    else match s.toLaunch with
      | [] => none
      | (method, uri) :: rest =>
        some { s with
          toLaunch := rest
          started := s.started ++ [(method, uri)]
          procs := s.procs ++ [worker method uri printAll allHeaders (net s.procs.length)] }
  | .sched i =>
    if s.crashed || s.returned then none
    else match s.procs[i]? with
      | some (e :: es) => some (perform i { s with procs := s.procs.set i es } e)
      | _ => none
  | .wait =>
    if s.crashed || s.returned then none
    else if s.toLaunch = [] ∧ s.counter = 0 then some { s with returned := true }
    else none

/-- The state a schedule leads to, `none` when it asks for a step that is not enabled. -/
def run (printAll allHeaders : Bool) (net : Nat → Outcome) : State → List Action → Option State
  | s, [] => some s
  | s, a :: as =>
    match step printAll allHeaders net s a with
    | some s' => run printAll allHeaders net s' as
    | none => none

/-- The function `main` from line 134 on, under a schedule: the flags are
parsed and the configuration is loaded (a failure there ends the process
before any task exists), the header is printed, the counter is set, and the
schedule decides how the `go` statements of the loops, the events of the
goroutines and the return of `wg.Wait()` interleave. -/
def main (cfg : Config) (printAll allHeaders : Bool) (net : Nat → Outcome)
    (schedule : List Action) : Option State :=
  run printAll allHeaders net (initial cfg allHeaders) schedule

/-- The texts goroutine `i` has written to the report stream, in stream order. -/
def outOf (i : Nat) (out : List (Option Nat × String)) : List String :=
  (out.filter fun w => w.1 == some i).map Prod.snd

/-- The texts goroutine `i` has written to the error stream, in stream order. -/
def errOf (i : Nat) (err : List (Nat × String)) : List String :=
  (err.filter fun w => w.1 == i).map Prod.snd

/-- The writes of the workers on the report stream: all but the header of `main`. -/
def workerOut (out : List (Option Nat × String)) : List (Option Nat × String) :=
  out.filter fun w => w.1.isSome

/-- The number of outcomes a state shows: the lines the workers have written
to the report stream (the column header is not one) plus the lines on the
error stream. -/
def emittedOutcomes (s : State) : Nat :=
  (workerOut s.out).length + s.err.length

/-- The writes of goroutine `i` form one uninterrupted run of the stream whose
writers are `ws`: after its first write no other writer comes before its last. -/
def contiguous (i : Nat) (ws : List (Option Nat)) : Bool :=
  ((ws.dropWhile fun w => w != some i).dropWhile fun w => w == some i).all fun w => w != some i

/-! ## Bookkeeping for the invariants of the dispatcher -/

/-- The number of lines a sequence of events writes, to either stream. -/
def writes (p : List Event) : Nat :=
  (stdoutOf p).length + (stderrOf p).length

/-- The number of lines the goroutines of the tasks `ts` will write, when the
first of them is started as goroutine `i`. -/
def pendingWrites (printAll allHeaders : Bool) (net : Nat → Outcome) : Nat → List Task → Nat
  | _, [] => 0
  | i, (method, uri) :: rest =>
    writes (worker method uri printAll allHeaders (net i)) +
      pendingWrites printAll allHeaders net (i + 1) rest

/-- A configuration of 46341 sites and 46341 methods: 2147488281 tasks, more
than an `int32` counts. -/
def overflowConfig : Config :=
  ⟨List.replicate 46341 "http://a.test", List.replicate 46341 "GET"⟩

/-- What holds of every state the program reaches from `initial cfg allHeaders`,
whatever the number of tasks. -/
structure Inv (cfg : Config) (printAll allHeaders : Bool) (net : Nat → Outcome) (s : State) :
    Prop where
  /-- The loops have started the first tasks and have the others still to start. -/
  launched : s.toLaunch = (launches cfg).drop s.procs.length
  /-- The tasks started are those of the goroutines, the first tasks of the loops. -/
  startedEq : s.started = (launches cfg).take s.procs.length
  /-- No goroutine is started beyond the tasks of the loops. -/
  bound : s.procs.length ≤ (launches cfg).length
  /-- Once `main` has returned the loops are over and the counter is zero. -/
  returned : s.returned = true → s.toLaunch = [] ∧ s.counter = 0
  /-- A goroutine has performed a prefix of the events of its call of `worker`,
  and what it has written is what that prefix writes. -/
  progress : ∀ i p method uri, s.procs[i]? = some p → (launches cfg)[i]? = some (method, uri) →
    ∃ pre, worker method uri printAll allHeaders (net i) = pre ++ p ∧
      stdoutOf pre = outOf i s.out ∧ stderrOf pre = errOf i s.err
  /-- Only goroutines that were started have written. -/
  outOwner : ∀ w ∈ s.out, ∀ i, w.1 = some i → i < s.procs.length
  errOwner : ∀ w ∈ s.err, w.1 < s.procs.length
  /-- Lines written, lines the running goroutines have still to write and
  lines of the tasks not yet started add up to the lines of all tasks. -/
  lines : emittedOutcomes s + (s.procs.map writes).sum +
      pendingWrites printAll allHeaders net s.procs.length s.toLaunch =
    pendingWrites printAll allHeaders net 0 (launches cfg)

/-- What holds of the WaitGroup in every state the program reaches when the
number of tasks fits the counter. -/
structure Accounting (cfg : Config) (s : State) : Prop where
  /-- The counter is the number of `wg.Done()` calls still to come. -/
  counter : s.counter = s.toLaunch.length + ((s.procs.map (List.count Event.done)).sum : Nat)
  /-- Every `wg.Done()` call so far has taken one off the registered count. -/
  signals : s.counter + s.doneSignals = (launches cfg).length
  /-- The number of tasks is one an `int32` holds. -/
  fits : (launches cfg).length < 2147483648

/-! ## Formatting lemmas -/

theorem get_eq_firstValue (h : Header) :
    h.Get "Server" = firstValue h "Server" ∧
    h.Get "X-Powered-By" = firstValue h "X-Powered-By" ∧
    h.Get "Max-Forwards" = firstValue h "Max-Forwards" := by
  have h1 : CanonicalMIMEHeaderKey "Server" = "Server" := by decide
  have h2 : CanonicalMIMEHeaderKey "X-Powered-By" = "X-Powered-By" := by decide
  have h3 : CanonicalMIMEHeaderKey "Max-Forwards" = "Max-Forwards" := by decide
  simp only [Header.Get, firstValue, h1, h2, h3, and_self]

theorem sprintf_summary (method uri : String) (resp : Response) :
    Sprintf "%v|%v|%v|%v|%v|%v\n"
      [.str uri, .str method, .int resp.StatusCode, .str (resp.Header.Get "Server"),
       .str (resp.Header.Get "X-Powered-By"), .str (resp.Header.Get "Max-Forwards")]
      = summaryLine method uri resp := by
  obtain ⟨h1, h2, h3⟩ := get_eq_firstValue resp.Header
  rw [h1, h2, h3]
  apply String.ext
  simp [Sprintf, sprintfAux, formatV, summaryLine, String.data_append]

theorem sprintf_status (method uri : String) (resp : Response) :
    Sprintf "%v - %v - Status Code:%v\n" [.str uri, .str method, .int resp.StatusCode]
      = statusLine method uri resp := by
  apply String.ext
  simp [Sprintf, sprintfAux, formatV, statusLine, String.data_append]

theorem sprintf_header (k v0 : String) (vs : List String) :
    Sprintf "%v:%v\n" [.str k, .str v0] = headerLine (k, v0 :: vs) := by
  apply String.ext
  simp [Sprintf, sprintfAux, formatV, headerLine, String.data_append]

theorem sprintln_nil : Sprintln [] = "\n" := by decide

theorem sprintln_str (e : String) : Sprintln [.str e] = e ++ "\n" := by
  rfl

/-! ## The report of one worker -/

@[simp] theorem stdoutOf_nil : stdoutOf [] = [] := rfl

@[simp] theorem stdoutOf_stdout (t : String) (es : List Event) :
    stdoutOf (Event.stdout t :: es) = t :: stdoutOf es := rfl

@[simp] theorem stdoutOf_stderr (t : String) (es : List Event) :
    stdoutOf (Event.stderr t :: es) = stdoutOf es := rfl

@[simp] theorem stdoutOf_closeBody (es : List Event) :
    stdoutOf (Event.closeBody :: es) = stdoutOf es := rfl

@[simp] theorem stdoutOf_done (es : List Event) : stdoutOf (Event.done :: es) = stdoutOf es := rfl

@[simp] theorem stdoutOf_crash (es : List Event) : stdoutOf (Event.crash :: es) = stdoutOf es := rfl

@[simp] theorem stderrOf_nil : stderrOf [] = [] := rfl

@[simp] theorem stderrOf_stdout (t : String) (es : List Event) :
    stderrOf (Event.stdout t :: es) = stderrOf es := rfl

@[simp] theorem stderrOf_stderr (t : String) (es : List Event) :
    stderrOf (Event.stderr t :: es) = t :: stderrOf es := rfl

@[simp] theorem stderrOf_closeBody (es : List Event) :
    stderrOf (Event.closeBody :: es) = stderrOf es := rfl

@[simp] theorem stderrOf_done (es : List Event) : stderrOf (Event.done :: es) = stderrOf es := rfl

@[simp] theorem stderrOf_crash (es : List Event) : stderrOf (Event.crash :: es) = stderrOf es := rfl

@[simp] theorem stdoutOf_ite_crash (p : Prop) [Decidable p] :
    stdoutOf (if p then [Event.crash] else []) = [] := by
  split <;> rfl

@[simp] theorem stderrOf_ite_crash (p : Prop) [Decidable p] :
    stderrOf (if p then [Event.crash] else []) = [] := by
  split <;> rfl

theorem stdoutOf_append (a b : List Event) : stdoutOf (a ++ b) = stdoutOf a ++ stdoutOf b := by
  simp [stdoutOf, List.filterMap_append]

theorem stderrOf_append (a b : List Event) : stderrOf (a ++ b) = stderrOf a ++ stderrOf b := by
  simp [stderrOf, List.filterMap_append]

theorem stderrOf_rangeHeader (h : Header) : stderrOf (rangeHeader h).1 = [] := by
  induction h with
  | nil => rfl
  | cons e rest ih =>
    obtain ⟨k, v⟩ := e
    cases v with
    | nil => rfl
    | cons v0 vs => simpa [rangeHeader] using ih

/-- Without a header that lacks a value the loop does not panic and prints
one line per entry, in the order of the entries. -/
theorem rangeHeader_of_values (h : Header) (hv : ∀ e ∈ h, e.2 ≠ []) :
    rangeHeader h = (h.map fun e => Event.stdout (headerLine e), false) := by
  induction h with
  | nil => rfl
  | cons e rest ih =>
    obtain ⟨k, v⟩ := e
    cases v with
    | nil => exact absurd rfl (hv (k, []) (List.mem_cons_self _ _))
    | cons v0 vs =>
      have ih' := ih fun e he => hv e (List.mem_cons_of_mem _ he)
      simp [rangeHeader, ih', sprintf_header k v0 vs]

/-- The report of a worker whose request succeeded: the summary line under
its gate, then the detail block under `allHeaders`. -/
theorem stdoutOf_worker_ok (method uri : String) (printAll allHeaders : Bool) (resp : Response) :
    stdoutOf (worker method uri printAll allHeaders (.ok resp)) =
      (if printAll = true ∨ (allHeaders = false ∧ resp.StatusCode < 400)
        then [summaryLine method uri resp] else []) ++
      (if allHeaders = true then stdoutOf (headerDump method uri resp).1 else []) := by
  cases printAll <;> cases allHeaders <;>
    by_cases hs : resp.StatusCode < 400 <;>
    simp [worker, stdoutOf_append, sprintf_summary, hs]

theorem stderrOf_worker_ok (method uri : String) (printAll allHeaders : Bool) (resp : Response) :
    stderrOf (worker method uri printAll allHeaders (.ok resp)) = [] := by
  have h := stderrOf_rangeHeader resp.Header
  cases printAll <;> cases allHeaders <;>
    by_cases hs : resp.StatusCode < 400 <;>
    simp [worker, headerDump, stderrOf_append, hs, h] <;>
    split <;> rfl

theorem stdoutOf_map_stdout {α : Type} (f : α → String) (l : List α) :
    stdoutOf (l.map fun e => Event.stdout (f e)) = l.map f := by
  induction l with
  | nil => rfl
  | cons a l ih => simp [ih]

/-- The detail block of a response all of whose headers have a value. -/
theorem stdoutOf_headerDump (method uri : String) (resp : Response)
    (hv : ∀ e ∈ resp.Header, e.2 ≠ []) :
    stdoutOf (headerDump method uri resp).1 =
      statusLine method uri resp :: (resp.Header.map headerLine ++ ["\n"]) ∧
    (headerDump method uri resp).2 = false := by
  simp [headerDump, rangeHeader_of_values resp.Header hv, sprintf_status, sprintln_nil,
    stdoutOf_append, stdoutOf_map_stdout]

/-- Only the first value of a header reaches `rangeHeader`. -/
theorem rangeHeader_take (h : Header) :
    rangeHeader (h.map fun e => (e.1, e.2.take 1)) = rangeHeader h := by
  induction h with
  | nil => rfl
  | cons e rest ih =>
    obtain ⟨k, v⟩ := e
    cases v with
    | nil => rfl
    | cons v0 vs => simp [rangeHeader, ih]

theorem lookup_take (h : Header) (name : String) :
    firstValue (h.map fun e => (e.1, e.2.take 1)) name = firstValue h name := by
  induction h with
  | nil => rfl
  | cons e rest ih =>
    obtain ⟨k, v⟩ := e
    unfold firstValue at ih ⊢
    simp only [List.map_cons, List.lookup_cons]
    cases hk : (name == k)
    · simpa using ih
    · cases v with
      | nil => rfl
      | cons v0 vs => rfl

/-! ## The claims about one worker -/

/-- C1: with `allHeaders` false, a worker whose request succeeded writes to
the report stream exactly one line, the summary line, when `printAll` holds
or the status code is below 400, and writes nothing (to either stream) when
`printAll` is false and the status code is 400 or more; so the default mode
gives one line for 200 and none for 404, and `printAll` gives one line for 500. -/
theorem summary_gate_without_allHeaders (method uri : String) (printAll : Bool) (resp : Response) :
    stdoutOf (worker method uri printAll false (.ok resp)) =
        (if printAll = true ∨ resp.StatusCode < 400 then [summaryLine method uri resp] else []) ∧
      (stdoutOf (worker method uri printAll false (.ok resp))).length =
        (if printAll = true ∨ resp.StatusCode < 400 then 1 else 0) ∧
      stderrOf (worker method uri printAll false (.ok resp)) = [] ∧
      (stdoutOf (worker method uri false false (.ok ⟨200, resp.Header⟩))).length = 1 ∧
      (stdoutOf (worker method uri false false (.ok ⟨404, resp.Header⟩))).length = 0 ∧
      (stdoutOf (worker method uri true false (.ok ⟨500, resp.Header⟩))).length = 1 := by
  refine ⟨?_, ?_, stderrOf_worker_ok _ _ _ _ _, ?_, ?_, ?_⟩
  · simp [stdoutOf_worker_ok]
  · rw [stdoutOf_worker_ok]
    by_cases h : printAll = true ∨ resp.StatusCode < 400 <;> simp [h]
  · simp [stdoutOf_worker_ok]
  · simp [stdoutOf_worker_ok]
  · simp [stdoutOf_worker_ok]

/-- C2: the summary line a worker emits is the text of the six fields
uri, method, status code, `Server`, `X-Powered-By`, `Max-Forwards` in that
order, separated by `|` and closed by a newline, each header field being the
first value of that header or the empty string when the response lacks it;
the `printAll` branch and the default branch (status below 400) write the
same text, as the first write of the worker. -/
theorem summary_line_format (method uri : String) (allHeaders : Bool) (resp : Response) :
    (stdoutOf (worker method uri true allHeaders (.ok resp))).head? =
        some (uri ++ "|" ++ method ++ "|" ++ toString resp.StatusCode ++ "|" ++
          firstValue resp.Header "Server" ++ "|" ++ firstValue resp.Header "X-Powered-By" ++ "|" ++
          firstValue resp.Header "Max-Forwards" ++ "\n") ∧
      stdoutOf (worker method uri false false (.ok resp)) =
        (if resp.StatusCode < 400 then
          [uri ++ "|" ++ method ++ "|" ++ toString resp.StatusCode ++ "|" ++
            firstValue resp.Header "Server" ++ "|" ++ firstValue resp.Header "X-Powered-By" ++ "|" ++
            firstValue resp.Header "Max-Forwards" ++ "\n"]
         else []) ∧
      (∀ name, List.lookup name resp.Header = none → firstValue resp.Header name = "") ∧
      (∀ name v vs, List.lookup name resp.Header = some (v :: vs) →
        firstValue resp.Header name = v) := by
  refine ⟨?_, ?_, ?_, ?_⟩
  · simp [stdoutOf_worker_ok, summaryLine]
  · simp [stdoutOf_worker_ok, summaryLine]
  · intro name h; simp [firstValue, h]
  · intro name v vs h; simp [firstValue, h]

/-- C5: whatever the flags, a worker whose request construction or transport
call fails writes exactly one line to the error stream, the error text
followed by a newline, writes nothing to the report stream, and returns: it
signals completion and does not end the process. -/
theorem failure_goes_to_stderr (method uri err : String) (printAll allHeaders : Bool) :
    (stderrOf (worker method uri printAll allHeaders (.newRequestErr err)) = [err ++ "\n"] ∧
      stdoutOf (worker method uri printAll allHeaders (.newRequestErr err)) = [] ∧
      Event.crash ∉ worker method uri printAll allHeaders (.newRequestErr err) ∧
      (worker method uri printAll allHeaders (.newRequestErr err)).getLast? = some Event.done) ∧
    (stderrOf (worker method uri printAll allHeaders (.doErr err)) = [err ++ "\n"] ∧
      stdoutOf (worker method uri printAll allHeaders (.doErr err)) = [] ∧
      Event.crash ∉ worker method uri printAll allHeaders (.doErr err) ∧
      (worker method uri printAll allHeaders (.doErr err)).getLast? = some Event.done) := by
  simp [worker, stderrOf, stdoutOf, sprintln_str]

/-- C6: with `allHeaders` true, whatever the status code and `printAll`, a
worker whose request succeeded emits a detail block made of the status line
(uri, method, status code), then one `name:value` line per distinct header
name with the header's first value, then one blank line: the number of
distinct header names plus two lines, status line first, blank line last.
The hypotheses are what `net/http` guarantees of a response: the keys of a
map are distinct and every header that is present has a value. -/
theorem detail_block_shape (method uri : String) (printAll : Bool) (resp : Response)
    (hk : (resp.Header.map Prod.fst).Nodup) (hv : ∀ e ∈ resp.Header, e.2 ≠ []) :
    stdoutOf (worker method uri printAll true (.ok resp)) =
        (if printAll = true then [summaryLine method uri resp] else []) ++
          ([uri ++ " - " ++ method ++ " - Status Code:" ++ toString resp.StatusCode ++ "\n"] ++
            resp.Header.map (fun e => e.1 ++ ":" ++ e.2.headD "" ++ "\n") ++ ["\n"]) ∧
      ([uri ++ " - " ++ method ++ " - Status Code:" ++ toString resp.StatusCode ++ "\n"] ++
            resp.Header.map (fun e => e.1 ++ ":" ++ e.2.headD "" ++ "\n") ++ ["\n"]).length =
        (resp.Header.map Prod.fst).toFinset.card + 2 ∧
      Event.crash ∉ worker method uri printAll true (.ok resp) := by
  obtain ⟨h1, h2⟩ := stdoutOf_headerDump method uri resp hv
  refine ⟨?_, ?_, ?_⟩
  · rw [stdoutOf_worker_ok, h1]
    simp [statusLine, headerLine, Function.comp_def]
  · rw [List.toFinset_card_of_nodup hk]
    simp
  · cases printAll <;> simp [worker, h2] <;> simp [headerDump, rangeHeader_of_values resp.Header hv]

theorem detail_block_shape_witness :
    (([("Server", ["nginx"]), ("Set-Cookie", ["a=1", "b=2"])] : Header).map Prod.fst).Nodup ∧
    (∀ e ∈ ([("Server", ["nginx"]), ("Set-Cookie", ["a=1", "b=2"])] : Header), e.2 ≠ []) ∧
    stdoutOf (worker "GET" "http://a.test" false true
        (.ok ⟨404, [("Server", ["nginx"]), ("Set-Cookie", ["a=1", "b=2"])]⟩)) =
      ["http://a.test - GET - Status Code:404\n", "Server:nginx\n", "Set-Cookie:a=1\n", "\n"] :=
  ⟨by decide, by decide,
    (detail_block_shape "GET" "http://a.test" false
      ⟨404, [("Server", ["nginx"]), ("Set-Cookie", ["a=1", "b=2"])]⟩ (by decide) (by decide)).1.trans
      (by decide)⟩

/-- C7 fails as stated: with `allHeaders` true, `printAll` false and status
code 200 the worker writes the detail block only; there is no summary line. -/
theorem summary_with_allHeaders_counterexample :
    (200 : Int) < 400 ∧
    stdoutOf (worker "GET" "http://a.test" false true (.ok ⟨200, [("Server", ["nginx"])]⟩)) =
      ["http://a.test - GET - Status Code:200\n", "Server:nginx\n", "\n"] ∧
    summaryLine "GET" "http://a.test" ⟨200, [("Server", ["nginx"])]⟩ ∉
      stdoutOf (worker "GET" "http://a.test" false true (.ok ⟨200, [("Server", ["nginx"])]⟩)) := by
  decide

/-- C7 as amended: with `allHeaders` true the worker writes a summary line in
addition to the detail block exactly when `printAll` is true; the status code
plays no part, and with `printAll` false only the detail block is written. -/
theorem summary_with_allHeaders (method uri : String) (printAll : Bool) (resp : Response) :
    stdoutOf (worker method uri printAll true (.ok resp)) =
        (if printAll = true then [summaryLine method uri resp] else []) ++
          stdoutOf (headerDump method uri resp).1 ∧
      (stdoutOf (worker method uri printAll true (.ok resp))).length =
        (if printAll = true then 1 else 0) + (stdoutOf (headerDump method uri resp).1).length := by
  have h : stdoutOf (worker method uri printAll true (.ok resp)) =
      (if printAll = true then [summaryLine method uri resp] else []) ++
        stdoutOf (headerDump method uri resp).1 := by
    simp [stdoutOf_worker_ok]
  refine ⟨h, ?_⟩
  rw [h]
  cases printAll <;> simp [Nat.add_comm]

/-- C8 fails as stated: of the two values of `Set-Cookie` the dump shows the
first, and no line of it contains the second. -/
theorem dump_all_values_counterexample :
    stdoutOf (worker "GET" "http://a.test" false true
        (.ok ⟨200, [("Set-Cookie", ["a=1", "b=2"])]⟩)) =
      ["http://a.test - GET - Status Code:200\n", "Set-Cookie:a=1\n", "\n"] ∧
    ¬ ∀ v ∈ ["a=1", "b=2"],
        ∃ l ∈ stdoutOf (worker "GET" "http://a.test" false true
            (.ok ⟨200, [("Set-Cookie", ["a=1", "b=2"])]⟩)), v.data <:+: l.data := by
  decide

/-- C8 as amended: in the dump every header name has exactly one line, which
is `name:value` with the first value of the header, however many values the
header carries: the line at position `i + 1` of the detail block is that of
the `i`-th header, the block has one line per header besides its status line
and its blank line, so no line is written for a value after the first, and
the worker does the same as for the response in which every header keeps
only its first value. The hypothesis is what `net/http` guarantees: every
header that is present has a value. -/
theorem dump_first_value_only (method uri : String) (printAll : Bool) (resp : Response)
    (hv : ∀ e ∈ resp.Header, e.2 ≠ []) :
    stdoutOf (worker method uri printAll true (.ok resp)) =
        (if printAll = true then [summaryLine method uri resp] else []) ++
          ([statusLine method uri resp] ++
            resp.Header.map (fun e => e.1 ++ ":" ++ e.2.headD "" ++ "\n") ++ ["\n"]) ∧
      (∀ i name v vs, resp.Header[i]? = some (name, v :: vs) →
        (stdoutOf (headerDump method uri resp).1)[i + 1]? = some (name ++ ":" ++ v ++ "\n")) ∧
      (stdoutOf (headerDump method uri resp).1).length = resp.Header.length + 2 ∧
      worker method uri printAll true (.ok resp) =
        worker method uri printAll true
          (.ok ⟨resp.StatusCode, resp.Header.map fun e => (e.1, e.2.take 1)⟩) := by
  obtain ⟨h1, _⟩ := stdoutOf_headerDump method uri resp hv
  refine ⟨?_, ?_, ?_, ?_⟩
  · rw [stdoutOf_worker_ok, h1]
    simp [headerLine, Function.comp_def]
  · intro i name v vs hi
    rw [h1, List.getElem?_cons_succ, List.getElem?_append_left, List.getElem?_map, hi]
    · rfl
    · rw [List.length_map]
      rcases Nat.lt_or_ge i resp.Header.length with hlt | hge
      · exact hlt
      · rw [List.getElem?_eq_none hge] at hi; cases hi
  · rw [h1]
    simp
  · obtain ⟨g1, g2, g3⟩ := get_eq_firstValue resp.Header
    obtain ⟨t1, t2, t3⟩ := get_eq_firstValue (resp.Header.map fun e => (e.1, e.2.take 1))
    simp only [worker, headerDump, rangeHeader_take, g1, g2, g3, t1, t2, t3, lookup_take]

theorem dump_first_value_only_witness :
    (∀ e ∈ ([("Server", ["nginx"]), ("Set-Cookie", ["a=1", "b=2"])] : Header), e.2 ≠ []) ∧
    stdoutOf (worker "GET" "http://a.test" false true
        (.ok ⟨200, [("Server", ["nginx"]), ("Set-Cookie", ["a=1", "b=2"])]⟩)) =
      ["http://a.test - GET - Status Code:200\n", "Server:nginx\n", "Set-Cookie:a=1\n", "\n"] ∧
    (stdoutOf (headerDump "GET" "http://a.test"
        ⟨200, [("Server", ["nginx"]), ("Set-Cookie", ["a=1", "b=2"])]⟩).1)[2]? =
      some "Set-Cookie:a=1\n" :=
  ⟨by decide,
    (dump_first_value_only "GET" "http://a.test" false
      ⟨200, [("Server", ["nginx"]), ("Set-Cookie", ["a=1", "b=2"])]⟩ (by decide)).1.trans
      (by decide),
    (dump_first_value_only "GET" "http://a.test" false
      ⟨200, [("Server", ["nginx"]), ("Set-Cookie", ["a=1", "b=2"])]⟩ (by decide)).2.1
      1 "Set-Cookie" "a=1" ["b=2"] rfl⟩

/-! ## The tasks `main` launches -/

theorem inner_loop (uri : String) (methods : List String) (started : List Task) :
    methods.foldl (fun started method => started ++ [(method, uri)]) started =
      started ++ methods.map fun method => (method, uri) := by
  induction methods generalizing started with
  | nil => simp
  | cons m ms ih => simp [ih]

theorem outer_loop (sites methods : List String) (started : List Task) :
    sites.foldl
        (fun started uri =>
          methods.foldl (fun started method => started ++ [(method, uri)]) started) started =
      started ++ sites.flatMap fun uri => methods.map fun method => (method, uri) := by
  induction sites generalizing started with
  | nil => simp
  | cons s ss ih =>
    rw [List.foldl_cons, ih, inner_loop]
    simp

theorem launches_eq (cfg : Config) :
    launches cfg = cfg.Sites.flatMap fun uri => cfg.Methods.map fun method => (method, uri) := by
  simp [launches, outer_loop]

theorem length_cross (sites methods : List String) :
    (sites.flatMap fun uri => methods.map fun method => ((method, uri) : Task)).length =
      sites.length * methods.length := by
  induction sites with
  | nil => simp
  | cons s ss ih => simp [ih, Nat.succ_mul, Nat.add_comm]

theorem launches_length (cfg : Config) :
    (launches cfg).length = cfg.Sites.length * cfg.Methods.length := by
  rw [launches_eq, length_cross]

theorem cross_getElem? (sites methods : List String) (i j : Nat) (uri method : String)
    (hi : sites[i]? = some uri) (hj : methods[j]? = some method) :
    (sites.flatMap fun uri => methods.map fun method => ((method, uri) : Task))[i * methods.length + j]? =
      some (method, uri) := by
  have hjlt : j < methods.length := by
    rcases Nat.lt_or_ge j methods.length with h | h
    · exact h
    · rw [List.getElem?_eq_none h] at hj; cases hj
  induction sites generalizing i with
  | nil => simp at hi
  | cons s ss ih =>
    cases i with
    | zero =>
      simp only [List.getElem?_cons_zero, Option.some.injEq] at hi
      subst hi
      simp only [List.flatMap_cons, Nat.zero_mul, Nat.zero_add]
      rw [List.getElem?_append_left (by simpa using hjlt)]
      simp [hj]
    | succ i =>
      simp only [List.getElem?_cons_succ] at hi
      simp only [List.flatMap_cons]
      rw [List.getElem?_append_right (by simp [Nat.succ_mul]; omega)]
      have : (i + 1) * methods.length + j - (List.map (fun method => (method, s)) methods).length =
          i * methods.length + j := by
        simp [Nat.succ_mul]; omega
      rw [this]
      exact ih i hi

/-! ## Invariants of the dispatcher -/

/-- Every path through `worker` calls `wg.Done()` once, after all its writes;
only the end of the process by a panic can follow. -/
theorem worker_shape (method uri : String) (printAll allHeaders : Bool) (net : Outcome) :
    ∃ body tl, worker method uri printAll allHeaders net = body ++ Event.done :: tl ∧
      Event.done ∉ body ∧ (tl = [] ∨ tl = [Event.crash]) := by
  have hr : ∀ h : Header, Event.done ∉ (rangeHeader h).1 := by
    intro h
    induction h with
    | nil => simp [rangeHeader]
    | cons e rest ih =>
      obtain ⟨k, v⟩ := e
      cases v with
      | nil => simp [rangeHeader]
      | cons v0 vs => simpa [rangeHeader] using ih
  cases net with
  | newRequestErr err => exact ⟨[Event.stderr (Sprintln [.str err])], [], rfl, by simp, Or.inl rfl⟩
  | doErr err => exact ⟨[Event.stderr (Sprintln [.str err])], [], rfl, by simp, Or.inl rfl⟩
  | ok resp =>
    obtain ⟨summary, dump, hw, hs, hd⟩ : ∃ (summary : List Event) (dump : List Event × Bool),
        worker method uri printAll allHeaders (.ok resp) =
          summary ++ dump.1 ++ [Event.closeBody, Event.done] ++
            (if dump.2 then [Event.crash] else []) ∧
        Event.done ∉ summary ∧ Event.done ∉ dump.1 := by
      refine ⟨_, _, rfl, ?_, ?_⟩
      · cases printAll <;> cases allHeaders <;> simp
      · have := hr resp.Header
        cases allHeaders <;> simp [headerDump, this]
    refine ⟨summary ++ dump.1 ++ [Event.closeBody], if dump.2 then [Event.crash] else [], ?_, ?_, ?_⟩
    · rw [hw]; simp
    · simp [hs, hd]
    · split <;> simp

theorem worker_count_done (method uri : String) (printAll allHeaders : Bool) (net : Outcome) :
    (worker method uri printAll allHeaders net).count Event.done = 1 := by
  obtain ⟨body, tl, h, hb, ht⟩ := worker_shape method uri printAll allHeaders net
  rw [h, List.count_append, List.count_eq_zero_of_not_mem hb]
  rcases ht with rfl | rfl <;> simp

theorem sum_map_set (f : List Event → Nat) (l : List (List Event)) (i : Nat) (a b : List Event)
    (h : l[i]? = some a) : ((l.set i b).map f).sum + f a = (l.map f).sum + f b := by
  induction l generalizing i with
  | nil => simp at h
  | cons x xs ih =>
    cases i with
    | zero =>
      simp only [List.getElem?_cons_zero, Option.some.injEq] at h
      subst h
      simp only [List.set_cons_zero, List.map_cons, List.sum_cons]
      omega
    | succ i =>
      simp only [List.getElem?_cons_succ] at h
      have := ih i h
      simp only [List.set_cons_succ, List.map_cons, List.sum_cons]
      omega

theorem outOf_append (i j : Nat) (out : List (Option Nat × String)) (ws : List String) :
    outOf j (out ++ ws.map fun t => (some i, t)) = outOf j out ++ (if i = j then ws else []) := by
  unfold outOf
  rw [List.filter_append, List.map_append]
  congr 1
  by_cases h : i = j
  · subst h
    induction ws with
    | nil => simp
    | cons w ws ih => simpa using ih
  · rw [if_neg h]
    induction ws with
    | nil => simp
    | cons w ws ih => simp [h]

theorem errOf_append (i j : Nat) (err : List (Nat × String)) (ws : List String) :
    errOf j (err ++ ws.map fun t => (i, t)) = errOf j err ++ (if i = j then ws else []) := by
  unfold errOf
  rw [List.filter_append, List.map_append]
  congr 1
  by_cases h : i = j
  · subst h
    induction ws with
    | nil => simp
    | cons w ws ih => simpa using ih
  · rw [if_neg h]
    induction ws with
    | nil => simp
    | cons w ws ih => simp [h]

theorem workerOut_append (i : Nat) (out : List (Option Nat × String)) (ws : List String) :
    (workerOut (out ++ ws.map fun t => (some i, t))).length = (workerOut out).length + ws.length := by
  unfold workerOut
  rw [List.filter_append, List.length_append]
  congr 1
  induction ws with
  | nil => simp
  | cons w ws ih => simpa using ih

theorem outOf_of_owner (n : Nat) (out : List (Option Nat × String))
    (h : ∀ w ∈ out, ∀ i, w.1 = some i → i < n) : outOf n out = [] := by
  unfold outOf
  rw [List.map_eq_nil_iff, List.filter_eq_nil_iff]
  intro w hw hn
  have := h w hw n (by simpa using hn)
  omega

theorem errOf_of_owner (n : Nat) (err : List (Nat × String))
    (h : ∀ w ∈ err, w.1 < n) : errOf n err = [] := by
  unfold errOf
  rw [List.map_eq_nil_iff, List.filter_eq_nil_iff]
  intro w hw hn
  have := h w hw
  have : w.1 = n := by simpa using hn
  omega

theorem writes_cons (e : Event) (es : List Event) :
    writes (e :: es) = (stdoutOf [e]).length + (stderrOf [e]).length + writes es := by
  cases e <;> simp [writes] <;> omega

theorem perform_spec (i : Nat) (s : State) (e : Event) :
    (perform i s e).toLaunch = s.toLaunch ∧ (perform i s e).procs = s.procs ∧
    (perform i s e).started = s.started ∧
    (perform i s e).doneSignals = s.doneSignals + [e].count Event.done ∧
    (perform i s e).out = s.out ++ (stdoutOf [e]).map (fun t => (some i, t)) ∧
    (perform i s e).err = s.err ++ (stderrOf [e]).map (fun t => (i, t)) ∧
    (perform i s e).returned = s.returned := by
  cases e <;> simp [perform]

theorem perform_counter (i : Nat) (s : State) (e : Event) :
    (perform i s e).counter = if e = Event.done then wgAdd s.counter (-1) else s.counter := by
  cases e <;> simp [perform]

theorem perform_crashed (i : Nat) (s : State) (e : Event) (hc : s.crashed = false)
    (he : e ≠ Event.crash) (hd : e = Event.done → 0 < s.counter) (hs : s.counter < 2147483648) :
    (perform i s e).crashed = false := by
  cases e <;> simp_all [perform, wgAdd, toInt32]
  omega

/-- A counter in the range of `int32` that is positive is decremented by `wg.Done()`. -/
theorem wgAdd_done (counter : Int) (h0 : 0 < counter) (h1 : counter < 2147483648) :
    wgAdd counter (-1) = counter - 1 := by
  simp only [wgAdd, toInt32]
  omega

/-- A number of tasks an `int32` holds is registered as it is. -/
theorem wgAdd_register (cfg : Config) (h : (launches cfg).length < 2147483648) :
    wgAdd 0 (wgAddArg cfg) = (launches cfg).length := by
  rw [launches_length] at h ⊢
  have h' : ((cfg.Sites.length * cfg.Methods.length : Nat) : Int) < 2147483648 := by
    exact_mod_cast h
  have hcomm : ((cfg.Methods.length : Int) * (cfg.Sites.length : Int)) =
      ((cfg.Sites.length * cfg.Methods.length : Nat) : Int) := by
    push_cast
    exact Int.mul_comm _ _
  simp only [wgAdd, wgAddArg, toInt32, toInt64, hcomm]
  omega

theorem inv_initial (cfg : Config) (printAll allHeaders : Bool) (net : Nat → Outcome) :
    Inv cfg printAll allHeaders net (initial cfg allHeaders) where
  launched := by simp [initial]
  startedEq := by simp [initial]
  bound := by simp [initial]
  returned := by simp [initial]
  progress := by intro i p method uri h; simp [initial] at h
  outOwner := by
    intro w hw i hi
    simp only [initial, List.mem_map] at hw
    obtain ⟨t, _, rfl⟩ := hw
    cases hi
  errOwner := by intro w hw; simp [initial] at hw
  lines := by
    simp [initial, emittedOutcomes, workerOut]

theorem acc_initial (cfg : Config) (allHeaders : Bool) (h : (launches cfg).length < 2147483648) :
    Accounting cfg (initial cfg allHeaders) where
  counter := by simp [initial, wgAdd_register cfg h]
  signals := by simp [initial, wgAdd_register cfg h]
  fits := h

theorem initial_not_crashed (cfg : Config) (allHeaders : Bool)
    (h : (launches cfg).length < 2147483648) : (initial cfg allHeaders).crashed = false := by
  simp [initial, wgAdd_register cfg h]

theorem inv_launch (cfg : Config) (printAll allHeaders : Bool) (net : Nat → Outcome) (s : State)
    (method uri : String) (rest : List Task) (h : Inv cfg printAll allHeaders net s)
    (ht : s.toLaunch = (method, uri) :: rest) (hret : s.returned = false) :
    Inv cfg printAll allHeaders net
      { s with
        toLaunch := rest
        started := s.started ++ [(method, uri)]
        procs := s.procs ++ [worker method uri printAll allHeaders (net s.procs.length)] } := by
  have hdrop : (launches cfg).drop s.procs.length = (method, uri) :: rest := by
    rw [← h.launched, ht]
  have hget : (launches cfg)[s.procs.length]? = some (method, uri) := by
    have := List.getElem?_drop (L := launches cfg) (i := s.procs.length) (j := 0)
    rw [hdrop] at this
    simpa using this.symm
  have hrest : rest = (launches cfg).drop (s.procs.length + 1) := by
    have := List.tail_drop (launches cfg) s.procs.length
    rw [hdrop] at this
    simpa using this
  have hlt : s.procs.length < (launches cfg).length := by
    rcases Nat.lt_or_ge s.procs.length (launches cfg).length with hlt | hge
    · exact hlt
    · rw [List.getElem?_eq_none hge] at hget; cases hget
  refine ⟨?_, ?_, ?_, ?_, ?_, ?_, ?_, ?_⟩
  · simpa using hrest
  · simp only [List.length_append, List.length_singleton]
    rw [List.take_succ, hget, h.startedEq]
    rfl
  · simpa using hlt
  · intro hr; simp [hret] at hr
  · intro i p m u hp hl
    simp only at hp
    rcases Nat.lt_or_ge i s.procs.length with hi | hi
    · rw [List.getElem?_append_left hi] at hp
      exact h.progress i p m u hp hl
    · rw [List.getElem?_append_right hi] at hp
      have hi0 : i = s.procs.length := by
        rcases Nat.eq_zero_or_pos (i - s.procs.length) with h0 | h0
        · omega
        · rw [List.getElem?_eq_none (by simp only [List.length_singleton]; omega)] at hp; cases hp
      subst hi0
      simp only [Nat.sub_self, List.getElem?_cons_zero, Option.some.injEq] at hp
      rw [hget] at hl
      cases hl
      refine ⟨[], by simpa using hp, ?_, ?_⟩
      · simpa using (outOf_of_owner _ _ h.outOwner).symm
      · simpa using (errOf_of_owner _ _ h.errOwner).symm
  · intro w hw i hi
    have := h.outOwner w hw i hi
    simp only [List.length_append, List.length_singleton]
    omega
  · intro w hw
    have := h.errOwner w hw
    simp only [List.length_append, List.length_singleton]
    omega
  · have hl := h.lines
    rw [ht] at hl
    simp only [pendingWrites, emittedOutcomes] at hl ⊢
    simp only [List.map_append, List.sum_append, List.map_cons, List.map_nil, List.sum_cons,
      List.sum_nil, List.length_append, List.length_singleton]
    omega

theorem acc_launch (cfg : Config) (printAll allHeaders : Bool) (net : Nat → Outcome) (s : State)
    (method uri : String) (rest : List Task) (h : Accounting cfg s)
    (ht : s.toLaunch = (method, uri) :: rest) :
    Accounting cfg
      { s with
        toLaunch := rest
        started := s.started ++ [(method, uri)]
        procs := s.procs ++ [worker method uri printAll allHeaders (net s.procs.length)] } := by
  refine ⟨?_, h.signals, h.fits⟩
  have hc := h.counter
  rw [ht] at hc
  simp only [List.map_append, List.sum_append, List.map_cons, List.map_nil, List.sum_cons,
    List.sum_nil, worker_count_done]
  simp only [List.length_cons] at hc
  push_cast at hc ⊢
  omega

theorem inv_sched (cfg : Config) (printAll allHeaders : Bool) (net : Nat → Outcome) (s : State)
    (i : Nat) (e : Event) (es : List Event) (h : Inv cfg printAll allHeaders net s)
    (hp : s.procs[i]? = some (e :: es)) (hret : s.returned = false) :
    Inv cfg printAll allHeaders net (perform i { s with procs := s.procs.set i es } e) := by
  obtain ⟨hT, hP, hS, _, hO, hE, hR⟩ := perform_spec i { s with procs := s.procs.set i es } e
  simp only at hT hP hS hO hE hR
  have hi : i < s.procs.length := by
    rcases Nat.lt_or_ge i s.procs.length with hi | hi
    · exact hi
    · rw [List.getElem?_eq_none hi] at hp; cases hp
  refine ⟨?_, ?_, ?_, ?_, ?_, ?_, ?_, ?_⟩
  · rw [hT, hP, List.length_set]
    exact h.launched
  · rw [hS, hP, List.length_set]
    exact h.startedEq
  · rw [hP, List.length_set]
    exact h.bound
  · intro hr; rw [hR, hret] at hr; cases hr
  · intro j p method uri hj hl
    rw [hP] at hj
    rw [hO, hE, outOf_append, errOf_append]
    by_cases hij : i = j
    · subst hij
      rw [List.getElem?_set_self hi] at hj
      cases hj
      obtain ⟨pre, hw, ho, he⟩ := h.progress i (e :: es) method uri hp hl
      refine ⟨pre ++ [e], by simp [hw], ?_, ?_⟩
      · rw [stdoutOf_append, ho]; simp
      · rw [stderrOf_append, he]; simp
    · rw [List.getElem?_set_ne hij] at hj
      obtain ⟨pre, hw, ho, he⟩ := h.progress j p method uri hj hl
      exact ⟨pre, hw, by simp [hij, ho], by simp [hij, he]⟩
  · intro w hw k hk
    rw [hO] at hw
    rw [hP, List.length_set]
    rcases List.mem_append.mp hw with hw | hw
    · exact h.outOwner w hw k hk
    · obtain ⟨t, _, rfl⟩ := List.mem_map.mp hw
      cases hk
      exact hi
  · intro w hw
    rw [hE] at hw
    rw [hP, List.length_set]
    rcases List.mem_append.mp hw with hw | hw
    · exact h.errOwner w hw
    · obtain ⟨t, _, rfl⟩ := List.mem_map.mp hw
      exact hi
  · have hs := sum_map_set writes s.procs i (e :: es) es hp
    have hl := h.lines
    have hw := writes_cons e es
    simp only [emittedOutcomes] at hl ⊢
    rw [hO, hE, hT, hP, workerOut_append, List.length_append, List.length_map, List.length_set]
    omega

/-- While a goroutine has its `wg.Done()` before it the counter is positive. -/
theorem counter_pos (cfg : Config) (s : State) (i : Nat) (p : List Event) (h : Accounting cfg s)
    (hp : s.procs[i]? = some p) (hd : 0 < p.count Event.done) :
    0 < s.counter ∧ s.counter < 2147483648 := by
  have hs := sum_map_set (List.count Event.done) s.procs i p [] hp
  have hc := h.counter
  have hg := h.signals
  have hf := h.fits
  simp only [List.count_nil] at hs
  omega

theorem acc_sched (cfg : Config) (s : State) (i : Nat) (e : Event) (es : List Event)
    (h : Accounting cfg s) (hp : s.procs[i]? = some (e :: es)) :
    Accounting cfg (perform i { s with procs := s.procs.set i es } e) := by
  obtain ⟨hT, hP, _, hD, _, _, _⟩ := perform_spec i { s with procs := s.procs.set i es } e
  have hC := perform_counter i { s with procs := s.procs.set i es } e
  simp only at hT hP hC hD
  have hcnt : (e :: es).count Event.done = [e].count Event.done + es.count Event.done := by
    rw [← List.singleton_append, List.count_append]
  have hs := sum_map_set (List.count Event.done) s.procs i (e :: es) es hp
  have hc := h.counter
  have hg := h.signals
  by_cases he : e = Event.done
  · have hpos := counter_pos cfg s i (e :: es) h hp (by rw [he]; simp)
    have h1 : [e].count Event.done = 1 := by rw [he]; rfl
    rw [if_pos he, wgAdd_done _ hpos.1 hpos.2] at hC
    refine ⟨?_, ?_, h.fits⟩
    · rw [hC, hT, hP]; omega
    · rw [hC, hD]; omega
  · have h0 : [e].count Event.done = 0 := by
      rw [List.count_eq_zero]
      simpa using fun h => he h.symm
    rw [if_neg he] at hC
    refine ⟨?_, ?_, h.fits⟩
    · rw [hC, hT, hP]; omega
    · rw [hC, hD]; omega

theorem inv_step (cfg : Config) (printAll allHeaders : Bool) (net : Nat → Outcome) (s s' : State)
    (a : Action) (h : Inv cfg printAll allHeaders net s)
    (hs : step printAll allHeaders net s a = some s') :
    Inv cfg printAll allHeaders net s' ∧ (Accounting cfg s → Accounting cfg s') := by
  cases a with
  | launch =>
    simp only [step] at hs
    split at hs
    · cases hs
    · next hg =>
      have hret : s.returned = false := by
        cases hr : s.returned
        · rfl
        · simp [hr] at hg
      split at hs
      · cases hs
      · next method uri rest ht =>
        cases hs
        exact ⟨inv_launch cfg printAll allHeaders net s method uri rest h ht hret,
          fun a => acc_launch cfg printAll allHeaders net s method uri rest a ht⟩
  | sched i =>
    simp only [step] at hs
    split at hs
    · cases hs
    · next hg =>
      have hret : s.returned = false := by
        cases hr : s.returned
        · rfl
        · simp [hr] at hg
      split at hs
      · next e es hp =>
        cases hs
        exact ⟨inv_sched cfg printAll allHeaders net s i e es h hp hret,
          fun a => acc_sched cfg s i e es a hp⟩
      · cases hs
  | wait =>
    simp only [step] at hs
    split at hs
    · cases hs
    · split at hs
      · next hz =>
        cases hs
        exact ⟨⟨h.launched, h.startedEq, h.bound, fun _ => hz, h.progress, h.outOwner, h.errOwner,
          h.lines⟩, fun a => ⟨a.counter, a.signals, a.fits⟩⟩
      · cases hs

theorem inv_run (cfg : Config) (printAll allHeaders : Bool) (net : Nat → Outcome)
    (schedule : List Action) (s s' : State) (h : Inv cfg printAll allHeaders net s)
    (hr : run printAll allHeaders net s schedule = some s') :
    Inv cfg printAll allHeaders net s' ∧ (Accounting cfg s → Accounting cfg s') := by
  induction schedule generalizing s with
  | nil =>
    simp only [run, Option.some.injEq] at hr
    exact hr ▸ ⟨h, id⟩
  | cons a as ih =>
    simp only [run] at hr
    split at hr
    · next s1 h1 =>
      obtain ⟨hi, ha⟩ := inv_step cfg printAll allHeaders net s s1 a h h1
      obtain ⟨hi', ha'⟩ := ih s1 hi hr
      exact ⟨hi', fun a => ha' (ha a)⟩
    · cases hr

theorem inv_reachable (cfg : Config) (printAll allHeaders : Bool) (net : Nat → Outcome)
    (schedule : List Action) (s : State)
    (hr : main cfg printAll allHeaders net schedule = some s) :
    Inv cfg printAll allHeaders net s :=
  (inv_run cfg printAll allHeaders net schedule _ s (inv_initial cfg printAll allHeaders net) hr).1

theorem acc_reachable (cfg : Config) (printAll allHeaders : Bool) (net : Nat → Outcome)
    (schedule : List Action) (s : State) (hN : (launches cfg).length < 2147483648)
    (hr : main cfg printAll allHeaders net schedule = some s) :
    Accounting cfg s :=
  (inv_run cfg printAll allHeaders net schedule _ s (inv_initial cfg printAll allHeaders net) hr).2
    (acc_initial cfg allHeaders hN)

/-- A goroutine that has its `wg.Done()` behind it has nothing left to write:
it is over, or about to end the process by its panic. -/
theorem terminal_of_no_done (method uri : String) (printAll allHeaders : Bool) (net : Outcome)
    (pre p : List Event) (h : worker method uri printAll allHeaders net = pre ++ p)
    (hd : p.count Event.done = 0) : p = [] ∨ p = [Event.crash] := by
  obtain ⟨body, tl, hw, _, ht⟩ := worker_shape method uri printAll allHeaders net
  rw [hw] at h
  have hnot : Event.done ∉ p := List.count_eq_zero.mp hd
  rcases List.append_eq_append_iff.mp h with ⟨a, _, ha⟩ | ⟨c, _, hc⟩
  · cases a with
    | nil =>
      simp only [List.nil_append] at ha
      exact absurd (ha ▸ List.mem_cons_self _ _) hnot
    | cons x a =>
      simp only [List.cons_append, List.cons.injEq] at ha
      obtain ⟨_, ha⟩ := ha
      rcases ht with rfl | rfl
      · have := List.append_eq_nil.mp ha.symm
        exact Or.inl this.2
      · cases a with
        | nil => exact Or.inr (by simpa using ha.symm)
        | cons y a =>
          simp only [List.cons_append, List.cons.injEq] at ha
          have := List.append_eq_nil.mp ha.2.symm
          exact Or.inl this.2
  · exact absurd (hc ▸ List.mem_append_right c (List.mem_cons_self _ _)) hnot

theorem sum_eq_zero_mem (l : List Nat) (h : l.sum = 0) : ∀ n ∈ l, n = 0 := by
  induction l with
  | nil => simp
  | cons x xs ih =>
    simp only [List.sum_cons] at h
    intro n hn
    rcases List.mem_cons.mp hn with rfl | hn
    · omega
    · exact ih (by omega) n hn

/-- Once the loops are over and every goroutine has its `wg.Done()` behind it,
every task has been started and every goroutine is over. -/
theorem all_terminal (cfg : Config) (printAll allHeaders : Bool) (net : Nat → Outcome) (s : State)
    (h : Inv cfg printAll allHeaders net s) (hT : s.toLaunch = [])
    (hover : ∀ p ∈ s.procs, Event.done ∉ p) :
    s.procs.length = (launches cfg).length ∧ s.started = launches cfg ∧
      ∀ p ∈ s.procs, p = [] ∨ p = [Event.crash] := by
  have hlen : s.procs.length = (launches cfg).length := by
    have := h.launched
    rw [hT] at this
    have := List.drop_eq_nil_iff.mp this.symm
    have := h.bound
    omega
  refine ⟨hlen, ?_, ?_⟩
  · rw [h.startedEq, hlen, List.take_length]
  · intro p hp
    obtain ⟨i, hi, hget⟩ := List.getElem_of_mem hp
    have hp' : s.procs[i]? = some p := by rw [List.getElem?_eq_getElem hi, hget]
    have hil : i < (launches cfg).length := by omega
    obtain ⟨pre, hw, _, _⟩ := h.progress i p (launches cfg)[i].1 (launches cfg)[i].2 hp'
      (by rw [List.getElem?_eq_getElem hil])
    exact terminal_of_no_done _ _ _ _ _ pre p hw (List.count_eq_zero.mpr (hover p hp))

/-- The counter is zero exactly when the loops are over and every goroutine
has its `wg.Done()` behind it. -/
theorem counter_zero_iff (cfg : Config) (s : State) (h : Accounting cfg s) :
    s.counter = 0 ↔ (s.toLaunch = [] ∧ ∀ p ∈ s.procs, Event.done ∉ p) := by
  have hc := h.counter
  constructor
  · intro hz
    have h0 : s.toLaunch.length = 0 := by omega
    have hsum : (s.procs.map (List.count Event.done)).sum = 0 := by omega
    refine ⟨List.length_eq_zero.mp h0, fun p hp => ?_⟩
    exact List.count_eq_zero.mp (sum_eq_zero_mem _ hsum _ (List.mem_map.mpr ⟨p, hp, rfl⟩))
  · rintro ⟨hT, hover⟩
    have hsum : (s.procs.map (List.count Event.done)).sum = 0 := by
      apply List.sum_eq_zero
      intro n hn
      obtain ⟨p, hp, rfl⟩ := List.mem_map.mp hn
      exact List.count_eq_zero.mpr (hover p hp)
    rw [hT, hsum] at hc
    simpa using hc

/-! ## The program can run to completion -/

theorem worker_no_early_crash (method uri : String) (printAll allHeaders : Bool) (net : Outcome)
    (body tl : List Event)
    (h : worker method uri printAll allHeaders net = body ++ Event.done :: tl)
    (hb : Event.done ∉ body) : Event.crash ∉ body := by
  have hr : ∀ h : Header, Event.crash ∉ (rangeHeader h).1 := by
    intro h
    induction h with
    | nil => simp [rangeHeader]
    | cons e rest ih =>
      obtain ⟨k, v⟩ := e
      cases v with
      | nil => simp [rangeHeader]
      | cons v0 vs => simpa [rangeHeader] using ih
  have hcount : ∀ l : List Event, l = body ++ Event.done :: tl →
      ∀ pre post, l = pre ++ Event.done :: post → Event.crash ∉ pre → Event.crash ∉ body := by
    intro l hl pre post hl' hpre
    rw [hl] at hl'
    rcases List.append_eq_append_iff.mp hl' with ⟨a, ha, ha'⟩ | ⟨c, hc, hc'⟩
    · intro hmem
      exact hpre (by rw [ha]; exact List.mem_append_left _ hmem)
    · cases c with
      | nil =>
        rw [List.append_nil] at hc
        rw [hc]
        exact hpre
      | cons x c =>
        simp only [List.cons_append, List.cons.injEq] at hc'
        refine absurd ?_ hb
        rw [hc, ← hc'.1]
        exact List.mem_append_right pre (List.mem_cons_self _ _)
  cases net with
  | newRequestErr err =>
    exact hcount _ h [Event.stderr (Sprintln [.str err])] [] rfl (by simp)
  | doErr err =>
    exact hcount _ h [Event.stderr (Sprintln [.str err])] [] rfl (by simp)
  | ok resp =>
    obtain ⟨summary, dump, hw, hs, hd⟩ : ∃ (summary : List Event) (dump : List Event × Bool),
        worker method uri printAll allHeaders (.ok resp) =
          summary ++ dump.1 ++ [Event.closeBody, Event.done] ++
            (if dump.2 then [Event.crash] else []) ∧
        Event.crash ∉ summary ∧ Event.crash ∉ dump.1 := by
      refine ⟨_, _, rfl, ?_, ?_⟩
      · cases printAll <;> cases allHeaders <;> simp
      · have := hr resp.Header
        cases allHeaders <;> simp [headerDump, this]
    refine hcount _ h (summary ++ dump.1 ++ [Event.closeBody])
      (if dump.2 then [Event.crash] else []) ?_ ?_
    · rw [hw]; simp
    · simp [hs, hd]

theorem run_append (printAll allHeaders : Bool) (net : Nat → Outcome) (s s1 s2 : State)
    (a b : List Action) (ha : run printAll allHeaders net s a = some s1)
    (hb : run printAll allHeaders net s1 b = some s2) :
    run printAll allHeaders net s (a ++ b) = some s2 := by
  induction a generalizing s with
  | nil =>
    simp only [run, Option.some.injEq] at ha
    subst ha
    simpa using hb
  | cons x a ih =>
    cases hs : step printAll allHeaders net s x with
    | none => simp [run, hs] at ha
    | some s' =>
      simp only [run, hs] at ha
      show run printAll allHeaders net s (x :: (a ++ b)) = some s2
      simp only [run, hs]
      exact ih s' ha

theorem exists_pos_of_sum (f : List Event → Nat) (l : List (List Event)) (h : 0 < (l.map f).sum) :
    ∃ (i : Nat) (p : List Event), l[i]? = some p ∧ 0 < f p := by
  induction l with
  | nil => simp at h
  | cons x xs ih =>
    simp only [List.map_cons, List.sum_cons] at h
    by_cases hx : 0 < f x
    · exact ⟨0, x, by simp, hx⟩
    · obtain ⟨i, p, hp, hf⟩ := ih (by omega)
      exact ⟨i + 1, p, by simpa using hp, hf⟩

/-- The loops can run to their end. -/
theorem launch_all (printAll allHeaders : Bool) (net : Nat → Outcome) (s : State)
    (hc : s.crashed = false) (hret : s.returned = false) :
    ∃ schedule s', run printAll allHeaders net s schedule = some s' ∧ s'.toLaunch = [] ∧
      s'.crashed = false ∧ s'.returned = false := by
  generalize hn : s.toLaunch.length = n
  induction n generalizing s with
  | zero => exact ⟨[], s, rfl, List.length_eq_zero.mp hn, hc, hret⟩
  | succ n ih =>
    cases ht : s.toLaunch with
    | nil => rw [ht] at hn; cases hn
    | cons t rest =>
      obtain ⟨method, uri⟩ := t
      rw [ht] at hn
      obtain ⟨schedule, s', hrun, h1, h2, h3⟩ :=
        ih { s with
            toLaunch := rest
            started := s.started ++ [(method, uri)]
            procs := s.procs ++ [worker method uri printAll allHeaders (net s.procs.length)] }
          hc hret (by simpa using hn)
      have hstep : step printAll allHeaders net s Action.launch =
          some { s with
            toLaunch := rest
            started := s.started ++ [(method, uri)]
            procs := s.procs ++ [worker method uri printAll allHeaders (net s.procs.length)] } := by
        simp [step, hc, hret, ht]
      refine ⟨Action.launch :: schedule, s', ?_, h1, h2, h3⟩
      simp only [run, hstep]
      exact hrun

/-- A goroutine can perform its next events, up to a panic of its own: while
the number of tasks fits the counter, `wg.Done()` does not panic. -/
theorem sched_events (cfg : Config) (printAll allHeaders : Bool) (net : Nat → Outcome) (i : Nat)
    (es1 es2 : List Event) (s : State) (h : Inv cfg printAll allHeaders net s)
    (a : Accounting cfg s) (hp : s.procs[i]? = some (es1 ++ es2))
    (hno : Event.crash ∉ es1) (hc : s.crashed = false) (hret : s.returned = false) :
    ∃ s', run printAll allHeaders net s (List.replicate es1.length (Action.sched i)) = some s' ∧
      s'.procs = s.procs.set i es2 ∧ s'.toLaunch = s.toLaunch ∧
      s'.crashed = false ∧ s'.returned = false := by
  have hi : i < s.procs.length := by
    rcases Nat.lt_or_ge i s.procs.length with hi | hi
    · exact hi
    · rw [List.getElem?_eq_none hi] at hp; cases hp
  induction es1 generalizing s with
  | nil =>
    refine ⟨s, rfl, ?_, rfl, hc, hret⟩
    apply List.ext_getElem?
    intro j
    by_cases hij : i = j
    · subst hij; rw [List.getElem?_set_self hi]; simpa using hp
    · rw [List.getElem?_set_ne hij]
  | cons e es1 ih =>
    have hne : e ≠ Event.crash := fun h => hno (h ▸ List.mem_cons_self _ _)
    have hno' : Event.crash ∉ es1 := fun h => hno (List.mem_cons_of_mem _ h)
    have hp' : s.procs[i]? = some (e :: (es1 ++ es2)) := hp
    have hstep : step printAll allHeaders net s (Action.sched i) =
        some (perform i { s with procs := s.procs.set i (es1 ++ es2) } e) := by
      simp [step, hc, hret, hp']
    obtain ⟨hT, hP, _, _, _, _, hR⟩ :=
      perform_spec i { s with procs := s.procs.set i (es1 ++ es2) } e
    simp only at hT hP hR
    have hlt : s.counter < 2147483648 := by
      have := a.signals
      have := a.fits
      omega
    have hC : (perform i { s with procs := s.procs.set i (es1 ++ es2) } e).crashed = false :=
      perform_crashed i _ e hc hne
        (fun hd => (counter_pos cfg s i _ a hp' (by rw [hd]; simp)).1) hlt
    obtain ⟨hinv, hacc⟩ := inv_step cfg printAll allHeaders net s _ _ h hstep
    obtain ⟨s', hrun, h1, h2, h3, h4⟩ := ih _ hinv (hacc a)
      (by rw [hP, List.getElem?_set_self hi]) hno' hC (by rw [hR, hret])
      (by rw [hP, List.length_set]; exact hi)
    refine ⟨s', ?_, ?_, ?_, h3, h4⟩
    · simp only [List.length_cons, List.replicate_succ, run, hstep]
      exact hrun
    · rw [h1, hP, List.set_set]
    · rw [h2, hT]

/-- A goroutine that has not signalled yet consists of events up to its
`wg.Done()`, none of them a panic, and of what follows the signal. -/
theorem split_at_done (method uri : String) (printAll allHeaders : Bool) (net : Outcome)
    (pre p : List Event) (h : worker method uri printAll allHeaders net = pre ++ p)
    (hd : 0 < p.count Event.done) :
    ∃ es1 es2, p = es1 ++ es2 ∧ Event.crash ∉ es1 ∧ es1.count Event.done = 1 ∧
      es2.count Event.done = 0 := by
  obtain ⟨body, tl, hw, hb, ht⟩ := worker_shape method uri printAll allHeaders net
  have hcr := worker_no_early_crash method uri printAll allHeaders net body tl hw hb
  have htl : tl.count Event.done = 0 := by rcases ht with rfl | rfl <;> simp
  rw [hw] at h
  rcases List.append_eq_append_iff.mp h.symm with ⟨a, ha, ha'⟩ | ⟨c, hc, hc'⟩
  · refine ⟨a ++ [Event.done], tl, by simp [ha'], ?_, ?_, htl⟩
    · have : Event.crash ∉ a := fun hm => hcr (by rw [ha]; exact List.mem_append_right _ hm)
      simpa using this
    · have : Event.done ∉ a := fun hm => hb (by rw [ha]; exact List.mem_append_right _ hm)
      simp [List.count_append, List.count_eq_zero_of_not_mem this]
  · cases c with
    | nil =>
      simp only [List.nil_append] at hc'
      exact ⟨[Event.done], tl, by simp [hc'], by simp, by simp, htl⟩
    | cons x c =>
      simp only [List.cons_append, List.cons.injEq] at hc'
      have : p.count Event.done ≤ tl.count Event.done := by
        rw [hc'.2, List.count_append]
        omega
      omega

/-- Once the loops are over, the goroutines can all be run past their `wg.Done()`. -/
theorem finish_all (cfg : Config) (printAll allHeaders : Bool) (net : Nat → Outcome) (n : Nat) :
    ∀ s, Inv cfg printAll allHeaders net s → Accounting cfg s → s.toLaunch = [] →
      s.crashed = false → s.returned = false →
      (s.procs.map (List.count Event.done)).sum = n →
      ∃ schedule s', run printAll allHeaders net s schedule = some s' ∧ s'.counter = 0 ∧
        s'.toLaunch = [] ∧ s'.crashed = false ∧ s'.returned = false := by
  induction n with
  | zero =>
    intro s h a hT hc hret hn
    have := a.counter
    rw [hT, hn] at this
    exact ⟨[], s, rfl, by simpa using this, hT, hc, hret⟩
  | succ n ih =>
    intro s h a hT hc hret hn
    obtain ⟨i, p, hp, hpos⟩ := exists_pos_of_sum (List.count Event.done) s.procs (by omega)
    have hi : i < s.procs.length := by
      rcases Nat.lt_or_ge i s.procs.length with hi | hi
      · exact hi
      · rw [List.getElem?_eq_none hi] at hp; cases hp
    have hil : i < (launches cfg).length := Nat.lt_of_lt_of_le hi h.bound
    obtain ⟨pre, hw, _, _⟩ := h.progress i p (launches cfg)[i].1 (launches cfg)[i].2 hp
      (by rw [List.getElem?_eq_getElem hil])
    obtain ⟨es1, es2, hsplit, hno, h1, h2⟩ := split_at_done _ _ _ _ _ pre p hw hpos
    obtain ⟨s1, hrun1, hprocs, hT1, hc1, hret1⟩ :=
      sched_events cfg printAll allHeaders net i es1 es2 s h a (hsplit ▸ hp) hno hc hret
    obtain ⟨hinv1, hacc1⟩ := inv_run cfg printAll allHeaders net _ s s1 h hrun1
    have hsum := sum_map_set (List.count Event.done) s.procs i p es2 hp
    have hcp : p.count Event.done = 1 := by rw [hsplit, List.count_append, h1, h2]
    obtain ⟨schedule, s2, hrun2, hz, hT2, hc2, hret2⟩ :=
      ih s1 hinv1 (hacc1 a) (hT1.trans hT) hc1 hret1 (by rw [hprocs]; omega)
    exact ⟨_, s2, run_append printAll allHeaders net s s1 s2 _ schedule hrun1 hrun2, hz, hT2, hc2,
      hret2⟩

/-- When the number of tasks fits the counter and every call into `net/http`
returns, the program has a run in which `wg.Wait()` returns. -/
theorem completion_reachable (cfg : Config) (printAll allHeaders : Bool) (net : Nat → Outcome)
    (hN : (launches cfg).length < 2147483648) :
    ∃ schedule s, main cfg printAll allHeaders net schedule = some s ∧ s.returned = true ∧
      s.counter = 0 := by
  obtain ⟨sched1, s1, hrun1, hT1, hc1, hret1⟩ :=
    launch_all printAll allHeaders net (initial cfg allHeaders)
      (initial_not_crashed cfg allHeaders hN) rfl
  have hinv1 := inv_reachable cfg printAll allHeaders net sched1 s1 hrun1
  have hacc1 := acc_reachable cfg printAll allHeaders net sched1 s1 hN hrun1
  obtain ⟨sched2, s2, hrun2, hz, hT2, hc2, hret2⟩ :=
    finish_all cfg printAll allHeaders net _ s1 hinv1 hacc1 hT1 hc1 hret1 rfl
  have hrun3 : run printAll allHeaders net s2 [Action.wait] = some { s2 with returned := true } := by
    simp [run, step, hc2, hret2, hT2, hz]
  refine ⟨sched1 ++ (sched2 ++ [Action.wait]), { s2 with returned := true }, ?_, rfl, hz⟩
  exact run_append printAll allHeaders net _ s1 _ sched1 _ hrun1
    (run_append printAll allHeaders net s1 s2 _ sched2 _ hrun2 hrun3)

/-! ## The claims about the dispatcher -/

theorem initial_fields (cfg : Config) (allHeaders : Bool) :
    (initial cfg allHeaders).counter = wgAdd 0 (wgAddArg cfg) ∧
      (initial cfg allHeaders).crashed = decide (wgAdd 0 (wgAddArg cfg) < 0) ∧
      (initial cfg allHeaders).started = [] ∧ (initial cfg allHeaders).returned = false ∧
      (initial cfg allHeaders).doneSignals = 0 :=
  ⟨rfl, by simp only [initial], rfl, rfl, rfl⟩

/-- After a panic of `wg.Add` nothing more happens: the only run is the empty one. -/
theorem main_crashed (cfg : Config) (printAll allHeaders : Bool) (net : Nat → Outcome)
    (hc : (initial cfg allHeaders).crashed = true) :
    (∀ a, main cfg printAll allHeaders net [a] = none) ∧
      ∀ schedule s, main cfg printAll allHeaders net schedule = some s →
        s = initial cfg allHeaders := by
  constructor
  · intro a
    have hstep : step printAll allHeaders net (initial cfg allHeaders) a = none := by
      cases a <;> simp [step, hc]
    simp [main, run, hstep]
  · intro schedule s hr
    cases schedule with
    | nil => simpa [main, run] using hr.symm
    | cons a as =>
      have hstep : step printAll allHeaders net (initial cfg allHeaders) a = none := by
        cases a <;> simp [step, hc]
      simp [main, run, hstep] at hr

theorem overflow_sizes :
    overflowConfig.Sites.length = 46341 ∧ overflowConfig.Methods.length = 46341 :=
  ⟨List.length_replicate _ _, List.length_replicate _ _⟩

theorem overflow_length : (launches overflowConfig).length = 2147488281 := by
  rw [launches_length, overflow_sizes.1, overflow_sizes.2]

theorem overflow_counter (allHeaders : Bool) :
    (initial overflowConfig allHeaders).counter = -2147479015 ∧
      (initial overflowConfig allHeaders).crashed = true := by
  have h : wgAdd 0 (wgAddArg overflowConfig) = -2147479015 := by
    simp only [wgAdd, wgAddArg, toInt32, toInt64, overflow_sizes.1, overflow_sizes.2]
    norm_num
  obtain ⟨h1, h2, _⟩ := initial_fields overflowConfig allHeaders
  rw [h1, h2, h]
  exact ⟨rfl, by decide⟩

/-- C3 fails as stated: for 46341 sites and 46341 methods the cross product
has 2147488281 pairs, the count `wg.Add` registers is that number taken as an
`int32`, -2147479015, `wg.Add` panics on it, and `main` launches no task. -/
theorem launches_cross_product_counterexample :
    (overflowConfig.Sites.flatMap fun uri =>
        overflowConfig.Methods.map fun method => ((method, uri) : Task)).length = 2147488281 ∧
      (initial overflowConfig false).counter = -2147479015 ∧
      (initial overflowConfig false).crashed = true ∧
      main overflowConfig false false (fun _ => .doErr "refused") [Action.launch] = none ∧
      ∀ schedule s, main overflowConfig false false (fun _ => .doErr "refused") schedule = some s →
        s.started = [] := by
  obtain ⟨hc, hcr⟩ := overflow_counter false
  obtain ⟨h1, h2⟩ := main_crashed overflowConfig false false (fun _ => .doErr "refused") hcr
  refine ⟨?_, hc, hcr, h1 _, ?_⟩
  · rw [← launches_eq]
    exact overflow_length
  · intro schedule s hr
    rw [h2 schedule s hr]
    exact (initial_fields overflowConfig false).2.2.1

/-- C3 as amended: when `|sites| * |methods|` is below `2^31`, the range of the
WaitGroup counter, the tasks `main` launches are the cross product of the
sites and the methods, the sites in the outer loop and the methods in the
inner one, both in configured order. In every state the program reaches the
tasks launched so far, followed by those still to launch, are the cross
product, and each launch started one goroutine; once the loops are over the
task at position `i * |methods| + j` is method `j` on site `i`; `main`
returns only after launching them all, and has a run in which it does; they
number `|sites| * |methods|`, which is the count `wg.Add` registers; and
none is launched when either list is empty. -/
theorem launches_cross_product (cfg : Config) (printAll allHeaders : Bool) (net : Nat → Outcome)
    (schedule : List Action) (s : State)
    (hN : cfg.Sites.length * cfg.Methods.length < 2147483648)
    (hr : main cfg printAll allHeaders net schedule = some s) :
    s.started ++ s.toLaunch =
        cfg.Sites.flatMap (fun uri => cfg.Methods.map fun method => (method, uri)) ∧
      s.started.length = s.procs.length ∧
      (s.toLaunch = [] → ∀ i j uri method,
        cfg.Sites[i]? = some uri → cfg.Methods[j]? = some method →
          s.started[i * cfg.Methods.length + j]? = some (method, uri)) ∧
      (s.returned = true →
        s.started = cfg.Sites.flatMap (fun uri => cfg.Methods.map fun method => (method, uri))) ∧
      (∃ schedule' s', main cfg printAll allHeaders net schedule' = some s' ∧
        s'.returned = true ∧
        s'.started = cfg.Sites.flatMap (fun uri => cfg.Methods.map fun method => (method, uri))) ∧
      s.started.length + s.toLaunch.length = cfg.Sites.length * cfg.Methods.length ∧
      (initial cfg allHeaders).counter = ((cfg.Sites.length * cfg.Methods.length : Nat) : Int) ∧
      (initial cfg allHeaders).crashed = false ∧
      (cfg.Sites = [] ∨ cfg.Methods = [] → s.started = []) := by
  have hN' : (launches cfg).length < 2147483648 := by rw [launches_length]; exact hN
  have h := inv_reachable cfg printAll allHeaders net schedule s hr
  have hall : s.started ++ s.toLaunch = launches cfg := by
    rw [h.startedEq, h.launched, List.take_append_drop]
  have hfin : ∀ t : State, Inv cfg printAll allHeaders net t → t.toLaunch = [] →
      t.started = launches cfg := by
    intro t ht hT
    have := ht.launched
    rw [hT] at this
    have hle := List.drop_eq_nil_iff.mp this.symm
    rw [ht.startedEq, List.take_of_length_le hle]
  refine ⟨?_, ?_, ?_, ?_, ?_, ?_, ?_, initial_not_crashed cfg allHeaders hN', ?_⟩
  · rw [hall, launches_eq]
  · rw [h.startedEq, List.length_take]
    have := h.bound
    omega
  · intro hT i j uri method hi hj
    rw [hfin s h hT, launches_eq]
    exact cross_getElem? _ _ i j uri method hi hj
  · intro hret
    rw [hfin s h (h.returned hret).1, launches_eq]
  · obtain ⟨schedule', s', hr', hret', _⟩ := completion_reachable cfg printAll allHeaders net hN'
    have h' := inv_reachable cfg printAll allHeaders net schedule' s' hr'
    exact ⟨schedule', s', hr', hret', by rw [hfin s' h' (h'.returned hret').1, launches_eq]⟩
  · rw [← List.length_append, hall, launches_length]
  · show wgAdd 0 (wgAddArg cfg) = _
    rw [wgAdd_register cfg hN', launches_length]
  · intro hempty
    have hl : launches cfg = [] := by
      rw [launches_eq]
      rcases hempty with h0 | h0 <;> simp [h0]
    rw [hl] at hall
    exact (List.append_eq_nil.mp hall).1

theorem launches_cross_product_witness :
    ["http://a.test", "http://b.test"].length * ["GET", "HEAD"].length < 2147483648 ∧
    main ⟨["http://a.test", "http://b.test"], ["GET", "HEAD"]⟩ false false
        (fun _ => .doErr "refused") [.launch, .launch, .launch, .launch] =
      some
        { counter := 4, toLaunch := [],
          started := [("GET", "http://a.test"), ("HEAD", "http://a.test"),
            ("GET", "http://b.test"), ("HEAD", "http://b.test")],
          procs := [[.stderr "refused\n", .done], [.stderr "refused\n", .done],
            [.stderr "refused\n", .done], [.stderr "refused\n", .done]],
          out := [(none,
            "Site|Method|StatusCode|Server Header|X-Powered-By Header|Max-Forwards Header\n")],
          err := [], doneSignals := 0, crashed := false, returned := false } ∧
    [("GET", "http://a.test"), ("HEAD", "http://a.test"), ("GET", "http://b.test"),
        ("HEAD", "http://b.test")] ++ ([] : List Task) =
      ["http://a.test", "http://b.test"].flatMap
        (fun uri => ["GET", "HEAD"].map fun method => (method, uri)) :=
  ⟨by decide, by decide,
    (launches_cross_product ⟨["http://a.test", "http://b.test"], ["GET", "HEAD"]⟩ false false
      (fun _ => .doErr "refused") [.launch, .launch, .launch, .launch] _ (by decide) rfl).1⟩

/-- C4 fails as stated: for 46341 sites and 46341 methods `wg.Add` leaves the
counter at -2147479015 and panics; no worker is started, none signals, and
`main` does not return. -/
theorem waitgroup_accounting_counterexample :
    overflowConfig.Sites.length * overflowConfig.Methods.length = 2147488281 ∧
      main overflowConfig false true (fun _ => .doErr "refused") [] =
        some (initial overflowConfig true) ∧
      (initial overflowConfig true).counter = -2147479015 ∧
      (initial overflowConfig true).crashed = true ∧
      ∀ schedule s, main overflowConfig false true (fun _ => .doErr "refused") schedule = some s →
        s.counter < 0 ∧ s.doneSignals = 0 ∧ s.returned = false := by
  obtain ⟨hc, hcr⟩ := overflow_counter true
  obtain ⟨_, h2⟩ := main_crashed overflowConfig false true (fun _ => .doErr "refused") hcr
  refine ⟨?_, rfl, hc, hcr, ?_⟩
  · rw [overflow_sizes.1, overflow_sizes.2]
  · intro schedule s hr
    rw [h2 schedule s hr, hc]
    exact ⟨by decide, rfl, rfl⟩

/-- C4 as amended: every path through `worker` (request construction failure,
transport failure, success under each setting of the flags) calls
`wg.Done()` exactly once. When `|sites| * |methods|` is below `2^31`, the
range of the WaitGroup counter, then in every state the program reaches,
under every interleaving, the counter is not negative, it is the number of
tasks not yet launched plus the number of goroutines that have not yet
signalled, and counter plus completion signals is the registered count
`|sites| * |methods|`; the counter is zero exactly when every task has been
launched and every goroutine has signalled, and then the signals number
`|sites| * |methods|` and every goroutine has reached its end; `main` has
returned only if the counter is zero; and, every call into `net/http`
returning, the program has a run in which the counter reaches zero and
`main` returns. -/
theorem waitgroup_accounting (cfg : Config) (printAll allHeaders : Bool) (net : Nat → Outcome)
    (schedule : List Action) (s : State)
    (hN : cfg.Sites.length * cfg.Methods.length < 2147483648)
    (hr : main cfg printAll allHeaders net schedule = some s) :
    (∀ method uri outcome,
        (worker method uri printAll allHeaders outcome).count Event.done = 1) ∧
      0 ≤ s.counter ∧
      s.counter =
        ((s.toLaunch.length + (s.procs.map (List.count Event.done)).sum : Nat) : Int) ∧
      s.counter + s.doneSignals = ((cfg.Sites.length * cfg.Methods.length : Nat) : Int) ∧
      (s.counter = 0 ↔ (s.toLaunch = [] ∧ ∀ p ∈ s.procs, Event.done ∉ p)) ∧
      (s.counter = 0 →
        s.doneSignals = cfg.Sites.length * cfg.Methods.length ∧ s.toLaunch = [] ∧
        s.procs.length = cfg.Sites.length * cfg.Methods.length ∧
        ∀ p ∈ s.procs, p = [] ∨ p = [Event.crash]) ∧
      (s.returned = true → s.counter = 0) ∧
      (∃ schedule' s', main cfg printAll allHeaders net schedule' = some s' ∧
        s'.returned = true ∧ s'.counter = 0) := by
  have hN' : (launches cfg).length < 2147483648 := by rw [launches_length]; exact hN
  have h := inv_reachable cfg printAll allHeaders net schedule s hr
  have a := acc_reachable cfg printAll allHeaders net schedule s hN' hr
  have hc := a.counter
  have hs := a.signals
  rw [launches_length] at hs
  refine ⟨fun method uri outcome => worker_count_done method uri printAll allHeaders outcome,
    by omega, by rw [Nat.cast_add]; exact hc, hs, counter_zero_iff cfg s a, ?_,
    fun hret => (h.returned hret).2, completion_reachable cfg printAll allHeaders net hN'⟩
  intro hz
  obtain ⟨hT, hover⟩ := (counter_zero_iff cfg s a).mp hz
  obtain ⟨hlen, _, hall⟩ := all_terminal cfg printAll allHeaders net s h hT hover
  rw [launches_length] at hlen
  exact ⟨by omega, hT, hlen, hall⟩

theorem waitgroup_accounting_witness :
    ["http://a.test"].length * ["GET", "HEAD"].length < 2147483648 ∧
    main ⟨["http://a.test"], ["GET", "HEAD"]⟩ false true (fun _ => .ok ⟨200, []⟩)
        [.launch, .launch, .sched 0, .sched 1, .sched 0, .sched 1, .sched 0, .sched 0, .sched 1,
          .sched 1, .wait] =
      some
        { counter := 0, toLaunch := [],
          started := [("GET", "http://a.test"), ("HEAD", "http://a.test")], procs := [[], []],
          out := [(some 0, "http://a.test - GET - Status Code:200\n"),
            (some 1, "http://a.test - HEAD - Status Code:200\n"), (some 0, "\n"), (some 1, "\n")],
          err := [], doneSignals := 2, crashed := false, returned := true } ∧
    ((0 : Int) = 0 → (2 : Nat) = 1 * 2 ∧ ([] : List Task) = [] ∧
      ([[], []] : List (List Event)).length = 1 * 2 ∧
      ∀ p ∈ ([[], []] : List (List Event)), p = [] ∨ p = [Event.crash]) :=
  ⟨by decide, by decide,
    (waitgroup_accounting ⟨["http://a.test"], ["GET", "HEAD"]⟩ false true (fun _ => .ok ⟨200, []⟩)
      [.launch, .launch, .sched 0, .sched 1, .sched 0, .sched 1, .sched 0, .sched 0, .sched 1,
        .sched 1, .wait] _ (by decide) rfl).2.2.2.2.2.1⟩

theorem writes_terminal (p : List Event) (h : p = [] ∨ p = [Event.crash]) : writes p = 0 := by
  rcases h with rfl | rfl <;> rfl

/-- With `allHeaders` false a worker writes one line, on one of the two
streams, unless the summary gate suppresses it. -/
theorem writes_worker_summary (method uri : String) (printAll : Bool) (net : Outcome)
    (hgate : ∀ resp, net = .ok resp → printAll = true ∨ resp.StatusCode < 400) :
    writes (worker method uri printAll false net) = 1 := by
  cases net with
  | newRequestErr err => rfl
  | doErr err => rfl
  | ok resp =>
    have hg := hgate resp rfl
    simp [writes, stderrOf_worker_ok, stdoutOf_worker_ok, hg]

theorem pendingWrites_summary (printAll : Bool) (net : Nat → Outcome)
    (hgate : ∀ i resp, net i = .ok resp → printAll = true ∨ resp.StatusCode < 400)
    (ts : List Task) (i : Nat) : pendingWrites printAll false net i ts = ts.length := by
  induction ts generalizing i with
  | nil => rfl
  | cons t ts ih =>
    obtain ⟨method, uri⟩ := t
    simp only [pendingWrites, List.length_cons, ih,
      writes_worker_summary method uri printAll (net i) (hgate i)]
    omega

/-- C9 fails as stated: one task in the default mode whose response has
status 404 leaves no line on either stream (0 outcomes for 1 task), and one
task under `allHeaders` leaves the three lines of its detail block (3
outcomes for 1 task). -/
theorem outcome_count_counterexample :
    (["http://a.test"].length * ["GET"].length = 1) ∧
    (main ⟨["http://a.test"], ["GET"]⟩ false false (fun _ => .ok ⟨404, [("Server", ["nginx"])]⟩)
        [.launch, .sched 0, .sched 0, .wait]).map (fun s => (s.returned, emittedOutcomes s)) =
      some (true, 0) ∧
    (main ⟨["http://a.test"], ["GET"]⟩ false true (fun _ => .ok ⟨200, [("Server", ["nginx"])]⟩)
        [.launch, .sched 0, .sched 0, .sched 0, .sched 0, .sched 0, .wait]).map
          (fun s => (s.returned, emittedOutcomes s)) =
      some (true, 3) := by
  decide

/-- C9 as amended: with `allHeaders` false, when every response that arrives
has a status code below 400 or `printAll` is set, then once all workers have
completed (every task launched, every goroutine past its `wg.Done()`) the
lines they wrote to the report stream (the column header not counted) and to
the error stream number `|sites| * |methods|`, under every interleaving; and
when `|sites| * |methods|` is below `2^31` that is so once the counter is
zero. -/
theorem outcome_count_one_line_per_task (cfg : Config) (printAll : Bool) (net : Nat → Outcome)
    (schedule : List Action) (s : State)
    (hr : main cfg printAll false net schedule = some s)
    (hgate : ∀ i resp, net i = .ok resp → printAll = true ∨ resp.StatusCode < 400) :
    (s.toLaunch = [] → (∀ p ∈ s.procs, Event.done ∉ p) →
        emittedOutcomes s = cfg.Sites.length * cfg.Methods.length) ∧
      (cfg.Sites.length * cfg.Methods.length < 2147483648 → s.counter = 0 →
        emittedOutcomes s = cfg.Sites.length * cfg.Methods.length) := by
  have h := inv_reachable cfg printAll false net schedule s hr
  have key : s.toLaunch = [] → (∀ p ∈ s.procs, Event.done ∉ p) →
      emittedOutcomes s = cfg.Sites.length * cfg.Methods.length := by
    intro hT hover
    obtain ⟨_, _, hall⟩ := all_terminal cfg printAll false net s h hT hover
    have hl := h.lines
    have hsum : (s.procs.map writes).sum = 0 := by
      apply List.sum_eq_zero
      intro n hn
      obtain ⟨p, hp, rfl⟩ := List.mem_map.mp hn
      exact writes_terminal p (hall p hp)
    rw [hT, hsum] at hl
    simp only [pendingWrites_summary printAll net hgate, launches_length] at hl
    simpa using hl
  refine ⟨key, fun hN hz => ?_⟩
  have a := acc_reachable cfg printAll false net schedule s
    (by rw [launches_length]; exact hN) hr
  obtain ⟨hT, hover⟩ := (counter_zero_iff cfg s a).mp hz
  exact key hT hover

theorem outcome_count_one_line_per_task_witness :
    (∀ i resp, (fun i => if i = 0 then Outcome.ok ⟨200, []⟩ else Outcome.doErr "timeout") i =
        Outcome.ok resp → false = true ∨ resp.StatusCode < 400) ∧
    emittedOutcomes
        { counter := 0, toLaunch := [],
          started := [("GET", "http://a.test"), ("GET", "http://b.test")], procs := [[], []],
          out := [(none, "Site|Method|StatusCode|Server Header|X-Powered-By Header|Max-Forwards Header\n"),
            (some 0, "http://a.test|GET|200|||\n")],
          err := [(1, "timeout\n")], doneSignals := 2, crashed := false, returned := true } =
      ["http://a.test", "http://b.test"].length * ["GET"].length :=
  have hgate : ∀ i resp, (fun i => if i = 0 then Outcome.ok ⟨200, []⟩ else Outcome.doErr "timeout") i =
      Outcome.ok resp → false = true ∨ resp.StatusCode < 400 := by
    intro i resp h
    by_cases hi : i = 0
    · simp only [hi, if_true, Outcome.ok.injEq] at h
      subst h
      exact Or.inr (by decide)
    · simp [hi] at h
  ⟨hgate,
    (outcome_count_one_line_per_task ⟨["http://a.test", "http://b.test"], ["GET"]⟩ false
      (fun i => if i = 0 then Outcome.ok ⟨200, []⟩ else Outcome.doErr "timeout")
      [.launch, .launch, .sched 1, .sched 0, .sched 0, .sched 1, .sched 0, .wait] _ (by decide)
      hgate).1 rfl (by decide)⟩

/-- C10 fails as stated: two tasks run under `allHeaders`; each writes its
status line, its header line and its blank line by three separate calls, no
lock is held, and in this interleaving the status line of the second task
lands between the status line and the header line of the first. -/
theorem atomic_chunk_counterexample :
    (main ⟨["http://a.test"], ["GET", "HEAD"]⟩ false true
        (fun _ => .ok ⟨200, [("Server", ["nginx"])]⟩)
        [.launch, .launch, .sched 0, .sched 1, .sched 0, .sched 0, .sched 1, .sched 1, .sched 0,
          .sched 0, .sched 1, .sched 1, .wait]).map
          (fun s => (s.returned, s.out, contiguous 0 (s.out.map Prod.fst))) =
      some (true,
        [(some 0, "http://a.test - GET - Status Code:200\n"),
          (some 1, "http://a.test - HEAD - Status Code:200\n"),
          (some 0, "Server:nginx\n"), (some 0, "\n"),
          (some 1, "Server:nginx\n"), (some 1, "\n")],
        false) := by
  decide

/-- C10 as amended: a worker issues every line by a write of its own and no
lock spans two writes, so a task's output is not one atomic chunk; what holds
under every interleaving is the order within a task. In every state the
program reaches, the writes of the goroutine of a task found on the report
stream are, in stream order, an initial part of the texts of its `Printf`
calls in program order, each write being the whole text of one call; once
the goroutine is past its `wg.Done()` they are all of them, and so they are,
when `|sites| * |methods|` is below `2^31`, once the counter is zero. -/
theorem writes_in_program_order (cfg : Config) (printAll allHeaders : Bool) (net : Nat → Outcome)
    (schedule : List Action) (s : State)
    (hr : main cfg printAll allHeaders net schedule = some s) :
    (∀ i method uri, (launches cfg)[i]? = some (method, uri) →
        outOf i s.out <+: stdoutOf (worker method uri printAll allHeaders (net i)) ∧
        (∀ p, s.procs[i]? = some p → Event.done ∉ p →
          outOf i s.out = stdoutOf (worker method uri printAll allHeaders (net i))) ∧
        (cfg.Sites.length * cfg.Methods.length < 2147483648 → s.counter = 0 →
          outOf i s.out = stdoutOf (worker method uri printAll allHeaders (net i)))) ∧
      (∀ w ∈ s.out, ∀ i, w.1 = some i → ∃ method uri,
        (launches cfg)[i]? = some (method, uri) ∧
          w.2 ∈ stdoutOf (worker method uri printAll allHeaders (net i))) := by
  have h := inv_reachable cfg printAll allHeaders net schedule s hr
  have hpre : ∀ i method uri, (launches cfg)[i]? = some (method, uri) →
      outOf i s.out <+: stdoutOf (worker method uri printAll allHeaders (net i)) := by
    intro i method uri hl
    rcases Nat.lt_or_ge i s.procs.length with hi | hi
    · obtain ⟨pre, hw, ho, _⟩ := h.progress i s.procs[i] method uri
        (List.getElem?_eq_getElem hi) hl
      rw [hw, stdoutOf_append, ho]
      exact List.prefix_append _ _
    · have ho : outOf i s.out = [] :=
        outOf_of_owner i s.out fun w hw k hk => by
          have := h.outOwner w hw k hk
          omega
      rw [ho]
      exact List.nil_prefix
  have hfull : ∀ i method uri, (launches cfg)[i]? = some (method, uri) →
      ∀ p, s.procs[i]? = some p → Event.done ∉ p →
        outOf i s.out = stdoutOf (worker method uri printAll allHeaders (net i)) := by
    intro i method uri hl p hp hd
    obtain ⟨pre, hw, ho, _⟩ := h.progress i p method uri hp hl
    rw [hw, stdoutOf_append, ho]
    rcases terminal_of_no_done _ _ _ _ _ pre p hw (List.count_eq_zero.mpr hd) with hp | hp <;>
      rw [hp] <;> simp
  refine ⟨fun i method uri hl => ⟨hpre i method uri hl, hfull i method uri hl, fun hN hz => ?_⟩, ?_⟩
  · have a := acc_reachable cfg printAll allHeaders net schedule s
      (by rw [launches_length]; exact hN) hr
    obtain ⟨hT, hover⟩ := (counter_zero_iff cfg s a).mp hz
    obtain ⟨hlen, _, _⟩ := all_terminal cfg printAll allHeaders net s h hT hover
    have hil : i < (launches cfg).length := by
      rcases Nat.lt_or_ge i (launches cfg).length with hlt | hge
      · exact hlt
      · rw [List.getElem?_eq_none hge] at hl; cases hl
    have hi : i < s.procs.length := by omega
    exact hfull i method uri hl s.procs[i] (List.getElem?_eq_getElem hi)
      (hover _ (List.getElem_mem hi))
  · intro w hw i hi
    have hlt : i < (launches cfg).length := by
      have := h.outOwner w hw i hi
      have := h.bound
      omega
    refine ⟨(launches cfg)[i].1, (launches cfg)[i].2, List.getElem?_eq_getElem hlt, ?_⟩
    have hmem : w.2 ∈ outOf i s.out := by
      unfold outOf
      exact List.mem_map.mpr ⟨w, List.mem_filter.mpr ⟨hw, by simp [hi]⟩, rfl⟩
    exact (hpre i _ _ (List.getElem?_eq_getElem hlt)).subset hmem

theorem writes_in_program_order_witness :
    outOf 0
        [(some 0, "http://a.test - GET - Status Code:200\n"),
          (some 1, "http://a.test - HEAD - Status Code:200\n"), (some 0, "\n"), (some 1, "\n")] =
      stdoutOf (worker "GET" "http://a.test" false true (.ok ⟨200, []⟩)) :=
  ((writes_in_program_order ⟨["http://a.test"], ["GET", "HEAD"]⟩ false true
      (fun _ => .ok ⟨200, []⟩)
      [.launch, .launch, .sched 0, .sched 1, .sched 0, .sched 1, .sched 0, .sched 0, .sched 1,
        .sched 1, .wait] _ rfl).1 0 "GET" "http://a.test" (by decide)).2.2 (by decide) rfl

end InfoDisclosure
